import Mathlib

/-!
Verification of the chunked batch-command engine and the font-run
resolution algorithm of the Figma MCP plugin
(src/src/cursor_mcp_plugin/code.js).

The development shallowly embeds the relevant source functions as pure
Lean functions.  External host effects (the Figma node API) are passed
in as explicit oracle functions; per-item asynchronous closures that
always return exactly one result object are embedded as total Lean
functions.  All definitions are executable.
-/

namespace FigmaMCP

/-! ## Chunk partitioning

Embeds the chunking loops of `setMultipleTextContents` (code.js
1960-1962), `deleteMultipleNodes` (code.js 2601-2603) and
`scanTextNodes` (code.js 1632-1656):

  for (let i = 0; i < items.length; i += CHUNK_SIZE)
    chunks.push(items.slice(i, i + CHUNK_SIZE));

`slice(i, i + C)` (and `slice(i, Math.min(i + C, len))` used by
`scanTextNodes`, which is the same list) is `(l.drop i).take C`; the
loop is primitive recursion peeling `C` items at a time.  A chunk size
of `0` would loop forever in the source; the claims only concern
`C > 0`, and the embedding returns `[]` for `C = 0`. -/
def chunksOfAux {α : Type} (C : Nat) : Nat → List α → List (List α)
  | _, [] => []
  | 0, _ :: _ => []
  | fuel + 1, a :: as => ((a :: as).take C) :: chunksOfAux C fuel ((a :: as).drop C)

/-- The chunking loop; the fuel of `chunksOfAux` only makes the recursion
structural and `l.length` iterations always suffice for `C > 0`. -/
def chunksOf {α : Type} (C : Nat) (l : List α) : List (List α) :=
  if C = 0 then [] else chunksOfAux C l.length l

theorem chunksOfAux_fuel {α : Type} (C : Nat) (hC : 0 < C) :
    ∀ (fuel : Nat) (l : List α) (fuel' : Nat), l.length ≤ fuel → l.length ≤ fuel' →
      chunksOfAux C fuel l = chunksOfAux C fuel' l := by
  intro fuel
  induction fuel with
  | zero =>
    intro l fuel' h h'
    have hnil : l = [] := List.length_eq_zero.mp (Nat.le_zero.mp h)
    subst hnil
    cases fuel' <;> rfl
  | succ f ih =>
    intro l fuel' h h'
    cases l with
    | nil => cases fuel' <;> rfl
    | cons a as =>
      cases fuel' with
      | zero => simp at h'
      | succ f' =>
        simp only [chunksOfAux]
        congr 1
        apply ih
        · simp only [List.length_drop, List.length_cons] at h ⊢
          omega
        · simp only [List.length_drop, List.length_cons] at h' ⊢
          omega

theorem chunksOf_nil {α : Type} (C : Nat) : chunksOf C ([] : List α) = [] := by
  by_cases h : C = 0 <;> simp [chunksOf, h, chunksOfAux]

theorem chunksOf_cons {α : Type} (C : Nat) (hC : 0 < C) (l : List α) (hl : l ≠ []) :
    chunksOf C l = l.take C :: chunksOf C (l.drop C) := by
  have h0 : ¬ C = 0 := Nat.pos_iff_ne_zero.mp hC
  cases l with
  | nil => exact absurd rfl hl
  | cons a as =>
    simp only [chunksOf, h0, if_false, List.length_cons, chunksOfAux]
    congr 1
    apply chunksOfAux_fuel C hC
    · simp only [List.length_drop, List.length_cons]
      omega
    · exact Nat.le_refl _

/-- Number of chunks is the ceiling of `length / C`. -/
theorem chunksOf_length {α : Type} (C : Nat) (hC : 0 < C) (l : List α) :
    (chunksOf C l).length = (l.length + C - 1) / C := by
  generalize hn : l.length = n
  induction n using Nat.strong_induction_on generalizing l with
  | _ n ih =>
    cases l with
    | nil =>
      have hn0 : n = 0 := by simpa using hn.symm
      subst hn0
      simp only [chunksOf_nil, List.length_nil, Nat.zero_add]
      exact (Nat.div_eq_of_lt (by omega)).symm
    | cons a as =>
      rw [chunksOf_cons C hC _ (by simp)]
      have hlen : as.length + 1 = n := by simpa using hn
      rcases Nat.lt_or_ge n C with hlt | hge
      · have hdrop : ((a :: as).drop C).length = 0 := by
          simp only [List.length_drop, List.length_cons]
          omega
        have hnil : (a :: as).drop C = [] := List.length_eq_zero.mp hdrop
        rw [hnil, chunksOf_nil]
        have hone : (n + C - 1) / C = 1 := by
          apply Nat.div_eq_of_lt_le
          · omega
          · simp only [Nat.succ_mul, Nat.one_mul]
            omega
        simp only [List.length_cons, List.length_nil, hlen, hone]
      · have hdlen : ((a :: as).drop C).length = n - C := by
          simp only [List.length_drop, List.length_cons]
          omega
        simp only [List.length_cons]
        rw [ih (n - C) (by omega) _ hdlen]
        have e1 : n - C + C - 1 = n - 1 := by omega
        have e2 : n + C - 1 = (n - 1) + C := by omega
        rw [e1, e2, Nat.add_div_right _ hC]

/-- Concatenating the chunks gives back the original list. -/
theorem chunksOf_flatten {α : Type} (C : Nat) (hC : 0 < C) (l : List α) :
    (chunksOf C l).flatten = l := by
  generalize hn : l.length = n
  induction n using Nat.strong_induction_on generalizing l with
  | _ n ih =>
    cases l with
    | nil => simp [chunksOf_nil]
    | cons a as =>
      rw [chunksOf_cons C hC _ (by simp)]
      have hlen : as.length + 1 = n := by simpa using hn
      have hdlen : ((a :: as).drop C).length = n - C := by
        simp only [List.length_drop, List.length_cons]
        omega
      rw [List.flatten_cons, ih (n - C) (by omega) _ hdlen, List.take_append_drop]

/-- Each chunk is the contiguous slice starting at `C * i`. -/
theorem chunksOf_get {α : Type} (C : Nat) (hC : 0 < C) (l : List α) :
    ∀ i, i < (chunksOf C l).length →
      (chunksOf C l)[i]? = some ((l.drop (C * i)).take C) := by
  generalize hn : l.length = n
  induction n using Nat.strong_induction_on generalizing l with
  | _ n ih =>
    intro i hi
    cases l with
    | nil => simp [chunksOf_nil] at hi
    | cons a as =>
      rw [chunksOf_cons C hC _ (by simp)] at hi ⊢
      have hlen : as.length + 1 = n := by simpa using hn
      have hdlen : ((a :: as).drop C).length = n - C := by
        simp only [List.length_drop, List.length_cons]
        omega
      match i with
      | 0 => simp
      | Nat.succ j =>
        simp only [List.length_cons] at hi
        have hrec := ih (n - C) (by omega) _ hdlen j (by omega)
        simp only [List.getElem?_cons_succ]
        rw [hrec, List.drop_drop, Nat.mul_succ]
        have hmul : C + C * j = C * j + C := by ring
        rw [hmul]

/-- All chunks except possibly the last have length exactly `C`. -/
theorem chunksOf_full {α : Type} (C : Nat) (hC : 0 < C) (l : List α) :
    ∀ i, i + 1 < (chunksOf C l).length →
      ∃ c, (chunksOf C l)[i]? = some c ∧ c.length = C := by
  intro i hi
  refine ⟨(l.drop (C * i)).take C, chunksOf_get C hC l i (by omega), ?_⟩
  simp only [List.length_take, List.length_drop]
  rw [chunksOf_length C hC l] at hi
  have h1 : i + 2 ≤ (l.length + C - 1) / C := by omega
  have h2 : (i + 2) * C ≤ l.length + C - 1 := (Nat.le_div_iff_mul_le hC).mp h1
  have h3 : (i + 2) * C = C * i + C + C := by ring
  omega

/-- C1: for every item list of length N and every chunk size C > 0, each
batch command (scan_text_nodes, set_multiple_text_contents,
delete_multiple_nodes) partitions the list into exactly ceil(N/C) chunks,
each a contiguous slice of size C except a possibly smaller last chunk,
and the concatenation of the chunk slices in order equals the original
list with no gaps, no duplicates, and order preserved. -/
theorem batch_chunking_partitions {α : Type} (C : Nat) (hC : 0 < C) (l : List α) :
    (chunksOf C l).length = (l.length + C - 1) / C ∧
    (chunksOf C l).flatten = l ∧
    (∀ i, i < (chunksOf C l).length →
        (chunksOf C l)[i]? = some ((l.drop (C * i)).take C)) ∧
    (∀ i, i + 1 < (chunksOf C l).length →
        ∃ c, (chunksOf C l)[i]? = some c ∧ c.length = C) :=
  ⟨chunksOf_length C hC l, chunksOf_flatten C hC l, chunksOf_get C hC l,
   chunksOf_full C hC l⟩

/-- Witness for C1 at chunk size 2 and a five-element list. -/
theorem batch_chunking_partitions_witness :
    (0 : Nat) < 2 ∧
    ((chunksOf 2 [10, 20, 30, 40, 50]).length = ([10, 20, 30, 40, 50].length + 2 - 1) / 2 ∧
     (chunksOf 2 [10, 20, 30, 40, 50]).flatten = [10, 20, 30, 40, 50] ∧
     (∀ i, i < (chunksOf 2 [10, 20, 30, 40, 50]).length →
        (chunksOf 2 [10, 20, 30, 40, 50])[i]? = some (([10, 20, 30, 40, 50].drop (2 * i)).take 2)) ∧
     (∀ i, i + 1 < (chunksOf 2 [10, 20, 30, 40, 50]).length →
        ∃ c, (chunksOf 2 [10, 20, 30, 40, 50])[i]? = some c ∧ c.length = 2)) :=
  ⟨by decide, batch_chunking_partitions 2 (by decide) [10, 20, 30, 40, 50]⟩

/-! ## Progress updates

Embeds `sendProgressUpdate` (code.js 10-50).  The event's `timestamp`
and the nested `payload` object are omitted: the only payload fields the
claims mention (`currentChunk`, `totalChunks`) are exactly the ones the
source lifts to top-level fields of the event, modeled here by the
`chunkInfo` argument (in the source, the only payloads carrying both
fields are the per-chunk events). -/

structure ChunkInfo where
  currentChunk : Nat
  totalChunks : Nat
deriving Repr, DecidableEq

structure ProgressUpdate where
  commandId : String
  commandType : String
  status : String
  progress : Nat
  totalItems : Nat
  processedItems : Nat
  message : String
  currentChunk : Option Nat := none
  totalChunks : Option Nat := none
deriving Repr, DecidableEq

def sendProgressUpdate (commandId commandType status : String) (progress : Nat)
    (totalItems processedItems : Nat) (message : String)
    (chunkInfo : Option ChunkInfo) : ProgressUpdate :=
  { commandId, commandType, status, progress, totalItems, processedItems, message,
    currentChunk := chunkInfo.map (fun c => c.currentChunk),
    totalChunks := chunkInfo.map (fun c => c.totalChunks) }

/-- Math.round(5 + (k / totalChunks) * 90), the 5..95 per-chunk progress
formula (code.js 1645, 1691, 1996, 2128, 2637, 2707), computed over exact
rationals as floor(x + 1/2), i.e. (11n + 180k) / (2n) in natural-number
division.  For the arguments that occur (0 ≤ k ≤ n) the IEEE-double
computation in the source agrees with exact rational rounding: when
5 + 90k/n is a half-integer the double value is that exact dyadic
rational, and otherwise the true value is at least 1/(2n) away from the
rounding boundary, far above the relative error of three correctly
rounded double operations for any realistic chunk count. -/
def roundChunkProgress (k n : Nat) : Nat := (11 * n + 180 * k) / (2 * n)

theorem roundChunkProgress_zero (n : Nat) (hn : 0 < n) : roundChunkProgress 0 n = 5 := by
  unfold roundChunkProgress
  apply Nat.div_eq_of_lt_le
  · omega
  · omega

theorem roundChunkProgress_total (n : Nat) (hn : 0 < n) : roundChunkProgress n n = 95 := by
  unfold roundChunkProgress
  apply Nat.div_eq_of_lt_le
  · omega
  · omega

theorem roundChunkProgress_mono (n : Nat) {k k' : Nat} (h : k ≤ k') :
    roundChunkProgress k n ≤ roundChunkProgress k' n :=
  Nat.div_le_div_right (by omega)

theorem roundChunkProgress_lower (k n : Nat) (hn : 0 < n) : 5 ≤ roundChunkProgress k n := by
  calc 5 = roundChunkProgress 0 n := (roundChunkProgress_zero n hn).symm
    _ ≤ roundChunkProgress k n := roundChunkProgress_mono n (Nat.zero_le k)

theorem roundChunkProgress_upper (k n : Nat) (hn : 0 < n) (hk : k ≤ n) :
    roundChunkProgress k n ≤ 95 := by
  calc roundChunkProgress k n ≤ roundChunkProgress n n := roundChunkProgress_mono n hk
    _ = 95 := roundChunkProgress_total n hn

/-! ## set_multiple_text_contents (code.js 1913-2182)

The per-item work is an asynchronous closure (code.js 2009-2108) whose
every control path returns exactly one result object with a `success`
flag (validation failure, node-not-found, non-text node, caught
exception, or success); its external effects go through the host API,
so it is embedded as a total oracle function `proc`.  `Promise.all`
resolves to the results in input order, so a chunk's result list is
`chunk.map proc`.  The `text` parameter is a JS array (always truthy),
so the parameter check reduces to the `nodeId` check; the missing-array
case is outside the embedded state space. -/

structure TextReplacement where
  nodeId : String
  text : Option String
deriving Repr, DecidableEq

structure ItemResult where
  success : Bool
  nodeId : String
  error : Option String := none
deriving Repr, DecidableEq

/-- The chunk loop of setMultipleTextContents (code.js 1983-2148):
for each chunk a pre-processing event, the per-item results, counter
updates and a post-processing event. -/
def processTextChunks (proc : TextReplacement → ItemResult) (commandId : String)
    (totalLen totalChunks : Nat) :
    List (List TextReplacement) → Nat → Nat → Nat → List ItemResult →
    List ProgressUpdate × List ItemResult × Nat × Nat
  | [], _, successCount, failureCount, results =>
    ([], results, successCount, failureCount)
  | chunk :: rest, chunkIndex, successCount, failureCount, results =>
    let preEvent := sendProgressUpdate commandId "set_multiple_text_contents" "in_progress"
      (roundChunkProgress chunkIndex totalChunks) totalLen (successCount + failureCount)
      ("Processing text replacements chunk " ++ toString (chunkIndex + 1) ++ "/"
        ++ toString totalChunks)
      (some ⟨chunkIndex + 1, totalChunks⟩)
    let chunkResults := chunk.map proc
    let successCount2 := successCount + chunkResults.countP (fun r => r.success)
    let failureCount2 := failureCount + chunkResults.countP (fun r => !r.success)
    let postEvent := sendProgressUpdate commandId "set_multiple_text_contents" "in_progress"
      (roundChunkProgress (chunkIndex + 1) totalChunks) totalLen (successCount2 + failureCount2)
      ("Completed chunk " ++ toString (chunkIndex + 1) ++ "/" ++ toString totalChunks ++ ". "
        ++ toString successCount2 ++ " successful, " ++ toString failureCount2 ++ " failed so far.")
      (some ⟨chunkIndex + 1, totalChunks⟩)
    let next := processTextChunks proc commandId totalLen totalChunks rest (chunkIndex + 1)
      successCount2 failureCount2 (results ++ chunkResults)
    (preEvent :: postEvent :: next.1, next.2)

structure SetMultipleOutcome where
  success : Bool
  nodeId : String
  replacementsApplied : Nat
  replacementsFailed : Nat
  totalReplacements : Nat
  results : List ItemResult
  completedInChunks : Nat
  commandId : String
deriving Repr, DecidableEq

def setMultipleStarted (textLen : Nat) (commandId : String) : ProgressUpdate :=
  sendProgressUpdate commandId "set_multiple_text_contents" "started" 0 textLen 0
    ("Starting text replacement for " ++ toString textLen ++ " nodes") none

def setMultiplePlanning (textLen numChunks : Nat) (commandId : String) : ProgressUpdate :=
  sendProgressUpdate commandId "set_multiple_text_contents" "in_progress" 5 textLen 0
    ("Preparing to replace text in " ++ toString textLen ++ " nodes using "
      ++ toString numChunks ++ " chunks") none

def setMultipleCompleted (textLen successCount failureCount : Nat)
    (commandId : String) : ProgressUpdate :=
  sendProgressUpdate commandId "set_multiple_text_contents" "completed" 100 textLen
    (successCount + failureCount)
    ("Text replacement complete: " ++ toString successCount ++ " successful, "
      ++ toString failureCount ++ " failed") none

def setMultipleTextContents (proc : TextReplacement → ItemResult)
    (nodeId : String) (text : List TextReplacement) (commandId : String) :
    List ProgressUpdate × Except String SetMultipleOutcome :=
  if nodeId = "" then
    let errorMsg := "Missing required parameters: nodeId and text array"
    ([sendProgressUpdate commandId "set_multiple_text_contents" "error" 0 0 0 errorMsg none],
     Except.error errorMsg)
  else
    let chunks := chunksOf 5 text
    let run := processTextChunks proc commandId text.length chunks.length chunks 0 0 0 []
    (setMultipleStarted text.length commandId
       :: setMultiplePlanning text.length chunks.length commandId
       :: (run.1 ++ [setMultipleCompleted text.length run.2.2.1 run.2.2.2 commandId]),
     Except.ok
       { success := decide (0 < run.2.2.1)
         nodeId := nodeId
         replacementsApplied := run.2.2.1
         replacementsFailed := run.2.2.2
         totalReplacements := text.length
         results := run.2.1
         completedInChunks := chunks.length
         commandId := commandId })

/-! ## delete_multiple_nodes (code.js 2560-2760) -/

structure NodeBrief where
  id : String
  name : String
  ntype : String
deriving Repr, DecidableEq

structure DeleteResult where
  success : Bool
  nodeId : String
  error : Option String := none
  nodeInfo : Option NodeBrief := none
deriving Repr, DecidableEq

/-- The per-item deletion closure (code.js 2650-2687).  The host API is
an oracle pair: `resolve` embeds figma.getNodeByIdAsync, and
`removeError id = some msg` means node.remove() threw an error whose
message is msg (caught at the item boundary). -/
def deleteOne (resolve : String → Option NodeBrief) (removeError : String → Option String)
    (nodeId : String) : DeleteResult :=
  match resolve nodeId with
  | none =>
    { success := false, nodeId := nodeId, error := some ("Node not found: " ++ nodeId) }
  | some node =>
    match removeError nodeId with
    | some msg => { success := false, nodeId := nodeId, error := some msg }
    | none => { success := true, nodeId := nodeId, nodeInfo := some node }

/-- The chunk loop of deleteMultipleNodes (code.js 2624-2727). -/
def processDeleteChunks (resolve : String → Option NodeBrief)
    (removeError : String → Option String) (commandId : String)
    (totalLen totalChunks : Nat) :
    List (List String) → Nat → Nat → Nat → List DeleteResult →
    List ProgressUpdate × List DeleteResult × Nat × Nat
  | [], _, successCount, failureCount, results =>
    ([], results, successCount, failureCount)
  | chunk :: rest, chunkIndex, successCount, failureCount, results =>
    let preEvent := sendProgressUpdate commandId "delete_multiple_nodes" "in_progress"
      (roundChunkProgress chunkIndex totalChunks) totalLen (successCount + failureCount)
      ("Processing deletion chunk " ++ toString (chunkIndex + 1) ++ "/" ++ toString totalChunks)
      (some ⟨chunkIndex + 1, totalChunks⟩)
    let chunkResults := chunk.map (deleteOne resolve removeError)
    let successCount2 := successCount + chunkResults.countP (fun r => r.success)
    let failureCount2 := failureCount + chunkResults.countP (fun r => !r.success)
    let postEvent := sendProgressUpdate commandId "delete_multiple_nodes" "in_progress"
      (roundChunkProgress (chunkIndex + 1) totalChunks) totalLen (successCount2 + failureCount2)
      ("Completed chunk " ++ toString (chunkIndex + 1) ++ "/" ++ toString totalChunks ++ ". "
        ++ toString successCount2 ++ " successful, " ++ toString failureCount2 ++ " failed so far.")
      (some ⟨chunkIndex + 1, totalChunks⟩)
    let next := processDeleteChunks resolve removeError commandId totalLen totalChunks rest
      (chunkIndex + 1) successCount2 failureCount2 (results ++ chunkResults)
    (preEvent :: postEvent :: next.1, next.2)

structure DeleteOutcome where
  success : Bool
  nodesDeleted : Nat
  nodesFailed : Nat
  totalNodes : Nat
  results : List DeleteResult
  completedInChunks : Nat
  commandId : String
deriving Repr, DecidableEq

def deleteStarted (idsLen : Nat) (commandId : String) : ProgressUpdate :=
  sendProgressUpdate commandId "delete_multiple_nodes" "started" 0 idsLen 0
    ("Starting deletion of " ++ toString idsLen ++ " nodes") none

def deletePlanning (idsLen numChunks : Nat) (commandId : String) : ProgressUpdate :=
  sendProgressUpdate commandId "delete_multiple_nodes" "in_progress" 5 idsLen 0
    ("Preparing to delete " ++ toString idsLen ++ " nodes using "
      ++ toString numChunks ++ " chunks") none

def deleteCompleted (idsLen successCount failureCount : Nat)
    (commandId : String) : ProgressUpdate :=
  sendProgressUpdate commandId "delete_multiple_nodes" "completed" 100 idsLen
    (successCount + failureCount)
    ("Node deletion complete: " ++ toString successCount ++ " successful, "
      ++ toString failureCount ++ " failed") none

def deleteMultipleNodes (resolve : String → Option NodeBrief)
    (removeError : String → Option String) (nodeIds : List String) (commandId : String) :
    List ProgressUpdate × Except String DeleteOutcome :=
  if nodeIds = [] then
    let errorMsg := "Missing or invalid nodeIds parameter"
    ([sendProgressUpdate commandId "delete_multiple_nodes" "error" 0 0 0 errorMsg none],
     Except.error errorMsg)
  else
    let chunks := chunksOf 5 nodeIds
    let run := processDeleteChunks resolve removeError commandId nodeIds.length chunks.length
      chunks 0 0 0 []
    (deleteStarted nodeIds.length commandId
       :: deletePlanning nodeIds.length chunks.length commandId
       :: (run.1 ++ [deleteCompleted nodeIds.length run.2.2.1 run.2.2.2 commandId]),
     Except.ok
       { success := decide (0 < run.2.2.1)
         nodesDeleted := run.2.2.1
         nodesFailed := run.2.2.2
         totalNodes := nodeIds.length
         results := run.2.1
         completedInChunks := chunks.length
         commandId := commandId })

/-! ## Aggregation lemmas for the chunk loops -/

theorem processTextChunks_spec (proc : TextReplacement → ItemResult) (commandId : String)
    (totalLen totalChunks : Nat) :
    ∀ (chunks : List (List TextReplacement)) (k sc fc : Nat) (rs : List ItemResult),
      (processTextChunks proc commandId totalLen totalChunks chunks k sc fc rs).2.1
          = rs ++ (chunks.flatten.map proc) ∧
      (processTextChunks proc commandId totalLen totalChunks chunks k sc fc rs).2.2.1
          = sc + (chunks.flatten.map proc).countP (fun r => r.success) ∧
      (processTextChunks proc commandId totalLen totalChunks chunks k sc fc rs).2.2.2
          = fc + (chunks.flatten.map proc).countP (fun r => !r.success) := by
  intro chunks
  induction chunks with
  | nil =>
    intro k sc fc rs
    simp [processTextChunks]
  | cons c cs ih =>
    intro k sc fc rs
    obtain ⟨h1, h2, h3⟩ := ih (k + 1)
      (sc + (c.map proc).countP (fun r => r.success))
      (fc + (c.map proc).countP (fun r => !r.success))
      (rs ++ c.map proc)
    simp only [processTextChunks, h1, h2, h3]
    refine ⟨?_, ?_, ?_⟩ <;>
      simp [List.countP_append, List.append_assoc] <;> omega

theorem processDeleteChunks_spec (resolve : String → Option NodeBrief)
    (removeError : String → Option String) (commandId : String)
    (totalLen totalChunks : Nat) :
    ∀ (chunks : List (List String)) (k sc fc : Nat) (rs : List DeleteResult),
      (processDeleteChunks resolve removeError commandId totalLen totalChunks chunks k sc fc rs).2.1
          = rs ++ (chunks.flatten.map (deleteOne resolve removeError)) ∧
      (processDeleteChunks resolve removeError commandId totalLen totalChunks chunks k sc fc rs).2.2.1
          = sc + (chunks.flatten.map (deleteOne resolve removeError)).countP (fun r => r.success) ∧
      (processDeleteChunks resolve removeError commandId totalLen totalChunks chunks k sc fc rs).2.2.2
          = fc + (chunks.flatten.map (deleteOne resolve removeError)).countP (fun r => !r.success) := by
  intro chunks
  induction chunks with
  | nil =>
    intro k sc fc rs
    simp [processDeleteChunks]
  | cons c cs ih =>
    intro k sc fc rs
    obtain ⟨h1, h2, h3⟩ := ih (k + 1)
      (sc + (c.map (deleteOne resolve removeError)).countP (fun r => r.success))
      (fc + (c.map (deleteOne resolve removeError)).countP (fun r => !r.success))
      (rs ++ c.map (deleteOne resolve removeError))
    simp only [processDeleteChunks, h1, h2, h3]
    refine ⟨?_, ?_, ?_⟩ <;>
      simp [List.countP_append, List.append_assoc] <;> omega

/-- The per-chunk progress values emitted by a chunk loop that still has
`m` chunks to process, the next having 0-based index `k`. -/
def chunkProgressList (n : Nat) : Nat → Nat → List Nat
  | k, m + 1 => roundChunkProgress k n :: roundChunkProgress (k + 1) n ::
      chunkProgressList n (k + 1) m
  | _, 0 => []

theorem processTextChunks_events (proc : TextReplacement → ItemResult) (commandId : String)
    (totalLen totalChunks : Nat) :
    ∀ (chunks : List (List TextReplacement)) (k sc fc : Nat) (rs : List ItemResult),
      (processTextChunks proc commandId totalLen totalChunks chunks k sc fc rs).1.map
          (fun e => e.progress)
        = chunkProgressList totalChunks k chunks.length := by
  intro chunks
  induction chunks with
  | nil =>
    intro k sc fc rs
    simp [processTextChunks, chunkProgressList]
  | cons c cs ih =>
    intro k sc fc rs
    simp only [processTextChunks, List.map_cons, List.length_cons, chunkProgressList]
    rw [ih]
    simp [sendProgressUpdate]

theorem processDeleteChunks_events (resolve : String → Option NodeBrief)
    (removeError : String → Option String) (commandId : String)
    (totalLen totalChunks : Nat) :
    ∀ (chunks : List (List String)) (k sc fc : Nat) (rs : List DeleteResult),
      (processDeleteChunks resolve removeError commandId totalLen totalChunks
          chunks k sc fc rs).1.map (fun e => e.progress)
        = chunkProgressList totalChunks k chunks.length := by
  intro chunks
  induction chunks with
  | nil =>
    intro k sc fc rs
    simp [processDeleteChunks, chunkProgressList]
  | cons c cs ih =>
    intro k sc fc rs
    simp only [processDeleteChunks, List.map_cons, List.length_cons, chunkProgressList]
    rw [ih]
    simp [sendProgressUpdate]

theorem chunkProgressList_mem (n : Nat) (hn : 0 < n) :
    ∀ (m k : Nat), k + m ≤ n → ∀ x ∈ chunkProgressList n k m, 5 ≤ x ∧ x ≤ 95 := by
  intro m
  induction m with
  | zero =>
    intro k _ x hx
    simp [chunkProgressList] at hx
  | succ j ih =>
    intro k hk x hx
    simp only [chunkProgressList, List.mem_cons] at hx
    rcases hx with h | h | h
    · subst h
      exact ⟨roundChunkProgress_lower k n hn, roundChunkProgress_upper k n hn (by omega)⟩
    · subst h
      exact ⟨roundChunkProgress_lower (k + 1) n hn,
             roundChunkProgress_upper (k + 1) n hn (by omega)⟩
    · exact ih (k + 1) (by omega) x h

theorem chunkProgressList_chain (n : Nat) (hn : 0 < n) :
    ∀ (m k : Nat), k + m ≤ n →
      List.Chain' (fun a b => a ≤ b) (chunkProgressList n k m ++ [100]) := by
  intro m
  induction m with
  | zero =>
    intro k _
    simp [chunkProgressList]
  | succ j ih =>
    intro k hk
    simp only [chunkProgressList, List.cons_append]
    refine List.chain'_cons.mpr ⟨roundChunkProgress_mono n (by omega), ?_⟩
    refine List.chain'_cons'.mpr ⟨?_, ih (k + 1) (by omega)⟩
    intro b hb
    cases j with
    | zero =>
      simp [chunkProgressList] at hb
      subst hb
      have := roundChunkProgress_upper (k + 1) n hn (by omega)
      omega
    | succ j' =>
      simp [chunkProgressList] at hb
      subst hb
      exact Nat.le_refl _

theorem processTextChunks_statuses (proc : TextReplacement → ItemResult) (commandId : String)
    (totalLen totalChunks : Nat) :
    ∀ (chunks : List (List TextReplacement)) (k sc fc : Nat) (rs : List ItemResult),
      ∀ e ∈ (processTextChunks proc commandId totalLen totalChunks chunks k sc fc rs).1,
        e.status = "in_progress" := by
  intro chunks
  induction chunks with
  | nil =>
    intro k sc fc rs e he
    simp [processTextChunks] at he
  | cons c cs ih =>
    intro k sc fc rs e he
    simp only [processTextChunks, List.mem_cons] at he
    rcases he with h | h | h
    · subst h; rfl
    · subst h; rfl
    · exact ih _ _ _ _ e h

theorem processDeleteChunks_statuses (resolve : String → Option NodeBrief)
    (removeError : String → Option String) (commandId : String)
    (totalLen totalChunks : Nat) :
    ∀ (chunks : List (List String)) (k sc fc : Nat) (rs : List DeleteResult),
      ∀ e ∈ (processDeleteChunks resolve removeError commandId totalLen totalChunks
          chunks k sc fc rs).1,
        e.status = "in_progress" := by
  intro chunks
  induction chunks with
  | nil =>
    intro k sc fc rs e he
    simp [processDeleteChunks] at he
  | cons c cs ih =>
    intro k sc fc rs e he
    simp only [processDeleteChunks, List.mem_cons] at he
    rcases he with h | h | h
    · subst h; rfl
    · subst h; rfl
    · exact ih _ _ _ _ e h

theorem setMultipleTextContents_ok (proc : TextReplacement → ItemResult)
    (nodeId : String) (text : List TextReplacement) (commandId : String) (h : nodeId ≠ "") :
    (setMultipleTextContents proc nodeId text commandId).2 = Except.ok
      { success := decide (0 < (text.map proc).countP (fun r => r.success))
        nodeId := nodeId
        replacementsApplied := (text.map proc).countP (fun r => r.success)
        replacementsFailed := (text.map proc).countP (fun r => !r.success)
        totalReplacements := text.length
        results := text.map proc
        completedInChunks := (chunksOf 5 text).length
        commandId := commandId } := by
  obtain ⟨h1, h2, h3⟩ := processTextChunks_spec proc commandId text.length
    (chunksOf 5 text).length (chunksOf 5 text) 0 0 0 []
  rw [chunksOf_flatten 5 (by norm_num) text] at h1 h2 h3
  simp only [setMultipleTextContents, h, if_false, ite_false, h1, h2, h3]
  simp

theorem deleteMultipleNodes_ok (resolve : String → Option NodeBrief)
    (removeError : String → Option String) (nodeIds : List String) (commandId : String)
    (h : nodeIds ≠ []) :
    (deleteMultipleNodes resolve removeError nodeIds commandId).2 = Except.ok
      { success := decide
          (0 < (nodeIds.map (deleteOne resolve removeError)).countP (fun r => r.success))
        nodesDeleted := (nodeIds.map (deleteOne resolve removeError)).countP (fun r => r.success)
        nodesFailed := (nodeIds.map (deleteOne resolve removeError)).countP (fun r => !r.success)
        totalNodes := nodeIds.length
        results := nodeIds.map (deleteOne resolve removeError)
        completedInChunks := (chunksOf 5 nodeIds).length
        commandId := commandId } := by
  obtain ⟨h1, h2, h3⟩ := processDeleteChunks_spec resolve removeError commandId nodeIds.length
    (chunksOf 5 nodeIds).length (chunksOf 5 nodeIds) 0 0 0 []
  rw [chunksOf_flatten 5 (by norm_num) nodeIds] at h1 h2 h3
  simp only [deleteMultipleNodes, h, if_false, ite_false, h1, h2, h3]
  simp

theorem setMultipleTextContents_events_shape (proc : TextReplacement → ItemResult)
    (nodeId : String) (text : List TextReplacement) (commandId : String) (h : nodeId ≠ "") :
    ∃ first mid last,
      (setMultipleTextContents proc nodeId text commandId).1 = first :: (mid ++ [last]) ∧
      first.status = "started" ∧ first.progress = 0 ∧
      first.totalItems = text.length ∧ first.processedItems = 0 ∧
      last.status = "completed" ∧ last.progress = 100 ∧
      last.totalItems = text.length ∧
      last.processedItems = (text.map proc).countP (fun r => r.success)
        + (text.map proc).countP (fun r => !r.success) ∧
      mid.map (fun e => e.progress)
        = 5 :: chunkProgressList (chunksOf 5 text).length 0 (chunksOf 5 text).length := by
  obtain ⟨h1, h2, h3⟩ := processTextChunks_spec proc commandId text.length
    (chunksOf 5 text).length (chunksOf 5 text) 0 0 0 []
  rw [chunksOf_flatten 5 (by norm_num) text] at h1 h2 h3
  have hev := processTextChunks_events proc commandId text.length
    (chunksOf 5 text).length (chunksOf 5 text) 0 0 0 []
  refine ⟨setMultipleStarted text.length commandId,
      setMultiplePlanning text.length (chunksOf 5 text).length commandId
        :: (processTextChunks proc commandId text.length (chunksOf 5 text).length
              (chunksOf 5 text) 0 0 0 []).1,
      setMultipleCompleted text.length
        (processTextChunks proc commandId text.length (chunksOf 5 text).length
          (chunksOf 5 text) 0 0 0 []).2.2.1
        (processTextChunks proc commandId text.length (chunksOf 5 text).length
          (chunksOf 5 text) 0 0 0 []).2.2.2 commandId,
      ?_, rfl, rfl, rfl, rfl, rfl, rfl, rfl, ?_, ?_⟩
  · simp only [setMultipleTextContents, h, if_false, ite_false]
    rw [List.cons_append]
  · simp only [setMultipleCompleted, sendProgressUpdate, h2, h3]
    omega
  · simp only [List.map_cons, hev, setMultiplePlanning, sendProgressUpdate]

theorem deleteMultipleNodes_events_shape (resolve : String → Option NodeBrief)
    (removeError : String → Option String) (nodeIds : List String) (commandId : String)
    (h : nodeIds ≠ []) :
    ∃ first mid last,
      (deleteMultipleNodes resolve removeError nodeIds commandId).1
          = first :: (mid ++ [last]) ∧
      first.status = "started" ∧ first.progress = 0 ∧
      first.totalItems = nodeIds.length ∧ first.processedItems = 0 ∧
      last.status = "completed" ∧ last.progress = 100 ∧
      last.totalItems = nodeIds.length ∧
      last.processedItems
        = (nodeIds.map (deleteOne resolve removeError)).countP (fun r => r.success)
          + (nodeIds.map (deleteOne resolve removeError)).countP (fun r => !r.success) ∧
      mid.map (fun e => e.progress)
        = 5 :: chunkProgressList (chunksOf 5 nodeIds).length 0 (chunksOf 5 nodeIds).length := by
  obtain ⟨h1, h2, h3⟩ := processDeleteChunks_spec resolve removeError commandId nodeIds.length
    (chunksOf 5 nodeIds).length (chunksOf 5 nodeIds) 0 0 0 []
  rw [chunksOf_flatten 5 (by norm_num) nodeIds] at h1 h2 h3
  have hev := processDeleteChunks_events resolve removeError commandId nodeIds.length
    (chunksOf 5 nodeIds).length (chunksOf 5 nodeIds) 0 0 0 []
  refine ⟨deleteStarted nodeIds.length commandId,
      deletePlanning nodeIds.length (chunksOf 5 nodeIds).length commandId
        :: (processDeleteChunks resolve removeError commandId nodeIds.length
              (chunksOf 5 nodeIds).length (chunksOf 5 nodeIds) 0 0 0 []).1,
      deleteCompleted nodeIds.length
        (processDeleteChunks resolve removeError commandId nodeIds.length
          (chunksOf 5 nodeIds).length (chunksOf 5 nodeIds) 0 0 0 []).2.2.1
        (processDeleteChunks resolve removeError commandId nodeIds.length
          (chunksOf 5 nodeIds).length (chunksOf 5 nodeIds) 0 0 0 []).2.2.2 commandId,
      ?_, rfl, rfl, rfl, rfl, rfl, rfl, rfl, ?_, ?_⟩
  · simp only [deleteMultipleNodes, h, if_false, ite_false]
    rw [List.cons_append]
  · simp only [deleteCompleted, sendProgressUpdate, h2, h3]
    omega
  · simp only [List.map_cons, hev, deletePlanning, sendProgressUpdate]

theorem countP_bool_total {α : Type} (p : α → Bool) (l : List α) :
    l.countP p + l.countP (fun a => !p a) = l.length := by
  have h := List.length_eq_countP_add_countP p l
  simpa using h.symm

/-- C2: for every completed batch command (set_multiple_text_contents,
delete_multiple_nodes) over an input list of length N, the terminal
completed progress event reports totalItems = N and
processedItems = successCount + failureCount, and
successCount + failureCount = N: every input item yields exactly one
ItemResult counted either as success or as failure. -/
theorem batch_terminal_counts
    (proc : TextReplacement → ItemResult)
    (resolve : String → Option NodeBrief) (removeError : String → Option String)
    (nodeId : String) (text : List TextReplacement)
    (nodeIds : List String) (commandId : String)
    (hnode : nodeId ≠ "") (hids : nodeIds ≠ []) :
    (∃ ev result,
      (setMultipleTextContents proc nodeId text commandId).1.getLast? = some ev ∧
      (setMultipleTextContents proc nodeId text commandId).2 = Except.ok result ∧
      ev.status = "completed" ∧
      ev.totalItems = text.length ∧
      ev.processedItems = result.replacementsApplied + result.replacementsFailed ∧
      result.replacementsApplied + result.replacementsFailed = text.length ∧
      result.results.length = text.length ∧
      result.replacementsApplied = result.results.countP (fun r => r.success) ∧
      result.replacementsFailed = result.results.countP (fun r => !r.success)) ∧
    (∃ ev result,
      (deleteMultipleNodes resolve removeError nodeIds commandId).1.getLast? = some ev ∧
      (deleteMultipleNodes resolve removeError nodeIds commandId).2 = Except.ok result ∧
      ev.status = "completed" ∧
      ev.totalItems = nodeIds.length ∧
      ev.processedItems = result.nodesDeleted + result.nodesFailed ∧
      result.nodesDeleted + result.nodesFailed = nodeIds.length ∧
      result.results.length = nodeIds.length ∧
      result.nodesDeleted = result.results.countP (fun r => r.success) ∧
      result.nodesFailed = result.results.countP (fun r => !r.success)) := by
  constructor
  · obtain ⟨first, mid, last, he, _, _, _, _, hst, _, htot, hproc, _⟩ :=
      setMultipleTextContents_events_shape proc nodeId text commandId hnode
    refine ⟨last, _, ?_, setMultipleTextContents_ok proc nodeId text commandId hnode,
        hst, htot, ?_, ?_, ?_, rfl, rfl⟩
    · rw [he, ← List.cons_append]
      exact List.getLast?_concat _
    · simpa using hproc
    · show (text.map proc).countP (fun r => r.success)
          + (text.map proc).countP (fun r => !r.success) = text.length
      rw [countP_bool_total]
      exact List.length_map _ _
    · show (text.map proc).length = text.length
      exact List.length_map _ _
  · obtain ⟨first, mid, last, he, _, _, _, _, hst, _, htot, hproc, _⟩ :=
      deleteMultipleNodes_events_shape resolve removeError nodeIds commandId hids
    refine ⟨last, _, ?_, deleteMultipleNodes_ok resolve removeError nodeIds commandId hids,
        hst, htot, ?_, ?_, ?_, rfl, rfl⟩
    · rw [he, ← List.cons_append]
      exact List.getLast?_concat _
    · simpa using hproc
    · show (nodeIds.map (deleteOne resolve removeError)).countP (fun r => r.success)
          + (nodeIds.map (deleteOne resolve removeError)).countP (fun r => !r.success)
          = nodeIds.length
      rw [countP_bool_total]
      exact List.length_map _ _
    · show (nodeIds.map (deleteOne resolve removeError)).length = nodeIds.length
      exact List.length_map _ _

/-- Concrete per-item oracle used by witnesses: succeeds iff the
replacement carries a text value. -/
def procW : TextReplacement → ItemResult :=
  fun r => { success := r.text.isSome, nodeId := r.nodeId }

def textW : List TextReplacement :=
  [⟨"5:1", some "alpha"⟩, ⟨"5:2", none⟩, ⟨"5:3", some "beta"⟩,
   ⟨"5:4", some "gamma"⟩, ⟨"5:5", some "delta"⟩, ⟨"5:6", some "epsilon"⟩]

/-- Concrete resolve oracle used by witnesses: node 9:4 does not resolve. -/
def resolveW : String → Option NodeBrief :=
  fun id => if id = "9:4" then none else some { id := id, name := "Node", ntype := "FRAME" }

def removeErrorW : String → Option String := fun _ => none

def idsW : List String := ["9:1", "9:2", "9:3", "9:4", "9:5", "9:6", "9:7"]

/-- Witness for C2 on concrete six-replacement and seven-id batches. -/
theorem batch_terminal_counts_witness :
    ("w:1" ≠ "" ∧ idsW ≠ []) ∧
    ((∃ ev result,
      (setMultipleTextContents procW "w:1" textW "cmd_w2").1.getLast? = some ev ∧
      (setMultipleTextContents procW "w:1" textW "cmd_w2").2 = Except.ok result ∧
      ev.status = "completed" ∧
      ev.totalItems = textW.length ∧
      ev.processedItems = result.replacementsApplied + result.replacementsFailed ∧
      result.replacementsApplied + result.replacementsFailed = textW.length ∧
      result.results.length = textW.length ∧
      result.replacementsApplied = result.results.countP (fun r => r.success) ∧
      result.replacementsFailed = result.results.countP (fun r => !r.success)) ∧
    (∃ ev result,
      (deleteMultipleNodes resolveW removeErrorW idsW "cmd_w2").1.getLast? = some ev ∧
      (deleteMultipleNodes resolveW removeErrorW idsW "cmd_w2").2 = Except.ok result ∧
      ev.status = "completed" ∧
      ev.totalItems = idsW.length ∧
      ev.processedItems = result.nodesDeleted + result.nodesFailed ∧
      result.nodesDeleted + result.nodesFailed = idsW.length ∧
      result.results.length = idsW.length ∧
      result.nodesDeleted = result.results.countP (fun r => r.success) ∧
      result.nodesFailed = result.results.countP (fun r => !r.success))) :=
  ⟨⟨by decide, by decide⟩,
   batch_terminal_counts procW resolveW removeErrorW "w:1" textW idsW "cmd_w2"
     (by decide) (by decide)⟩

theorem full_progress_chain (n : Nat) :
    List.Chain' (fun a b => a ≤ b)
      ((0 : Nat) :: 5 :: (chunkProgressList n 0 n ++ [100])) := by
  refine List.chain'_cons.mpr ⟨by omega, ?_⟩
  cases n with
  | zero =>
    simp [chunkProgressList]
  | succ m =>
    refine List.chain'_cons'.mpr
      ⟨?_, chunkProgressList_chain (m + 1) (by omega) (m + 1) 0 (by omega)⟩
    intro b hb
    simp only [chunkProgressList, List.cons_append, List.head?_cons,
      Option.mem_def, Option.some_inj] at hb
    rw [← hb, roundChunkProgress_zero (m + 1) (by omega)]

/-- Counterexample to C3 as stated: a set_multiple_text_contents
execution whose parameter validation fails (empty nodeId) emits exactly
one progress event, with status error and progress 0: its first event is
not a started event, and its terminal event does not have progress 100. -/
theorem set_multiple_progress_counterexample :
    ((setMultipleTextContents procW "" textW "cmd_c3").1.map (fun e => e.status)).head?
        = some "error" ∧
    ((setMultipleTextContents procW "" textW "cmd_c3").1.map (fun e => e.progress)).getLast?
        = some 0 ∧
    some "error" ≠ some "started" ∧ some (0 : Nat) ≠ some 100 :=
  ⟨rfl, rfl, by decide, by decide⟩

/-- C3 amended: for every set_multiple_text_contents execution that
passes parameter validation, the emitted event sequence has
non-decreasing progress, starts with a started event of progress 0,
ends with the terminal completed event of progress exactly 100, and
every intermediate event (the fixed 5 percent planning event and the
round(5 + k/totalChunks * 90) chunk events) stays within [5, 95].
An execution that fails validation instead emits a single error event
with progress 0. -/
theorem set_multiple_progress_monotone (proc : TextReplacement → ItemResult)
    (nodeId : String) (text : List TextReplacement) (commandId : String)
    (h : nodeId ≠ "") :
    ∃ first mid last,
      (setMultipleTextContents proc nodeId text commandId).1 = first :: (mid ++ [last]) ∧
      first.status = "started" ∧ first.progress = 0 ∧
      last.status = "completed" ∧ last.progress = 100 ∧
      (∀ e ∈ mid, 5 ≤ e.progress ∧ e.progress ≤ 95) ∧
      List.Chain' (fun a b => a.progress ≤ b.progress)
        ((setMultipleTextContents proc nodeId text commandId).1) := by
  obtain ⟨first, mid, last, he, hfs, hfp, _, _, hls, hlp, _, _, hmid⟩ :=
    setMultipleTextContents_events_shape proc nodeId text commandId h
  refine ⟨first, mid, last, he, hfs, hfp, hls, hlp, ?_, ?_⟩
  · intro e hme
    have hpmem : e.progress ∈ mid.map (fun e => e.progress) :=
      List.mem_map_of_mem _ hme
    rw [hmid] at hpmem
    rcases List.mem_cons.mp hpmem with h5 | hcp
    · omega
    · cases hn : (chunksOf 5 text).length with
      | zero =>
        rw [hn] at hcp
        simp [chunkProgressList] at hcp
      | succ m =>
        rw [hn] at hcp
        exact chunkProgressList_mem (m + 1) (by omega) (m + 1) 0 (by omega) _ hcp
  · have hchain := full_progress_chain (chunksOf 5 text).length
    have hmap : (setMultipleTextContents proc nodeId text commandId).1.map (fun e => e.progress)
        = (0 : Nat) :: 5 :: (chunkProgressList (chunksOf 5 text).length 0
            (chunksOf 5 text).length ++ [100]) := by
      rw [he]
      simp only [List.map_cons, List.map_append, hfp, hlp, hmid, List.map_cons,
        List.cons_append, List.map_nil]
    have := List.chain'_map (fun e : ProgressUpdate => e.progress)
      (l := (setMultipleTextContents proc nodeId text commandId).1)
      (R := fun a b => a ≤ b)
    rw [hmap] at this
    exact this.mp hchain

/-- Witness for the amended C3 on a concrete six-replacement batch. -/
theorem set_multiple_progress_monotone_witness :
    "w:1" ≠ "" ∧
    (∃ first mid last,
      (setMultipleTextContents procW "w:1" textW "cmd_c3w").1 = first :: (mid ++ [last]) ∧
      first.status = "started" ∧ first.progress = 0 ∧
      last.status = "completed" ∧ last.progress = 100 ∧
      (∀ e ∈ mid, 5 ≤ e.progress ∧ e.progress ≤ 95) ∧
      List.Chain' (fun a b => a.progress ≤ b.progress)
        ((setMultipleTextContents procW "w:1" textW "cmd_c3w").1)) :=
  ⟨by decide, set_multiple_progress_monotone procW "w:1" textW "cmd_c3w" (by decide)⟩

/-- C8: for every batch command execution in which at least one item
fails, the failure is captured as an ItemResult with success false and
processing continues through the remaining items of that chunk and all
subsequent chunks (the result list is the per-item function mapped over
the whole input list, so no item failure aborts the command), and the
command's overall success flag equals successCount > 0, so a batch with
some failures and at least one success still reports success true. -/
theorem delete_failures_do_not_abort (resolve : String → Option NodeBrief)
    (removeError : String → Option String) (nodeIds : List String) (commandId : String)
    (hids : nodeIds ≠ [])
    (hfail : ∃ id ∈ nodeIds, (deleteOne resolve removeError id).success = false) :
    ∃ result,
      (deleteMultipleNodes resolve removeError nodeIds commandId).2 = Except.ok result ∧
      result.results = nodeIds.map (deleteOne resolve removeError) ∧
      (∀ id ∈ nodeIds, (deleteOne resolve removeError id) ∈ result.results) ∧
      0 < result.nodesFailed ∧
      result.success = decide (0 < result.nodesDeleted) := by
  refine ⟨_, deleteMultipleNodes_ok resolve removeError nodeIds commandId hids, rfl, ?_, ?_, rfl⟩
  · intro id hid
    exact List.mem_map_of_mem _ hid
  · obtain ⟨id, hid, hsf⟩ := hfail
    show 0 < (nodeIds.map (deleteOne resolve removeError)).countP (fun r => !r.success)
    refine List.countP_pos_iff.mpr
      ⟨deleteOne resolve removeError id, List.mem_map_of_mem _ hid, ?_⟩
    simp [hsf]

/-- Witness for C8: deleting seven node ids where id 9:4 does not
resolve yields seven results, exactly one failed with an error citing
that id, nodesDeleted = 6 and overall success true. -/
theorem delete_failures_do_not_abort_witness :
    idsW ≠ [] ∧
    (∃ id ∈ idsW, (deleteOne resolveW removeErrorW id).success = false) ∧
    (∃ result,
      (deleteMultipleNodes resolveW removeErrorW idsW "cmd_w8").2 = Except.ok result ∧
      result.results = idsW.map (deleteOne resolveW removeErrorW) ∧
      (∀ id ∈ idsW, (deleteOne resolveW removeErrorW id) ∈ result.results) ∧
      0 < result.nodesFailed ∧
      result.success = decide (0 < result.nodesDeleted)) ∧
    (∃ result,
      (deleteMultipleNodes resolveW removeErrorW idsW "cmd_w8").2 = Except.ok result ∧
      result.results.length = 7 ∧ result.nodesDeleted = 6 ∧ result.nodesFailed = 1 ∧
      result.success = true ∧
      result.results.countP (fun r => decide (r.error = some "Node not found: 9:4")) = 1) :=
  ⟨by decide, by decide,
   delete_failures_do_not_abort resolveW removeErrorW idsW "cmd_w8" (by decide) (by decide),
   ⟨_, rfl, rfl, rfl, rfl, rfl, rfl⟩⟩

/-! ## Tree collection (code.js 1738-1763, 1835-1910, 2442-2469)

A scene node is embedded as a record of the properties the three walkers
read, plus a child list; a node without a children property behaves
exactly like one with an empty list in all three walkers, and absent or
non-numeric numeric properties are `none` (the source's
`typeof x === "number" ? x : 0` defaulting is in the record builders).
A mixed-font text node has `fontName := none`, matching the source's
"object with family/style" guard.  Numeric coordinates are opaque to the
claims and embedded as integers. -/

structure FontName where
  family : String
  style : String
deriving Repr, DecidableEq

structure NodeProps where
  id : String
  name : String
  ntype : String
  visible : Bool
  characters : String := ""
  fontName : Option FontName := none
  fontSize : Option Int := none
  x : Option Int := none
  y : Option Int := none
  width : Option Int := none
  height : Option Int := none
deriving Repr, DecidableEq

inductive FNode : Type where
  | mk (props : NodeProps) (children : List FNode)
deriving Repr

def FNode.props : FNode → NodeProps
  | .mk p _ => p

def FNode.children : FNode → List FNode
  | .mk _ c => c

/-- node.name or "Unnamed type" (a JS falsy name is the empty string). -/
def nodeLabel (n : FNode) : String :=
  if n.props.name = "" then "Unnamed " ++ n.props.ntype else n.props.name

structure NodeToProcess where
  node : FNode
  parentPath : List String
  depth : Nat

mutual

/-- collectNodesToProcess (code.js 1738-1763): skip invisible nodes
(pruning their whole subtree, since recursion never starts), extend the
path with this node's label, record the node, recurse into children. -/
def collectNodesToProcess (node : FNode) (parentPath : List String) (depth : Nat) :
    List NodeToProcess :=
  match node with
  | .mk props children =>
    if props.visible = false then []
    else
      let nodePath := parentPath ++ [nodeLabel (.mk props children)]
      { node := FNode.mk props children, parentPath := nodePath, depth := depth }
        :: collectChildren children nodePath depth

def collectChildren (children : List FNode) (nodePath : List String) (depth : Nat) :
    List NodeToProcess :=
  match children with
  | [] => []
  | c :: rest =>
    collectNodesToProcess c nodePath (depth + 1) ++ collectChildren rest nodePath depth

end

structure SafeTextNode where
  id : String
  name : String
  ntype : String
  characters : String
  fontSize : Int
  fontFamily : String
  fontStyle : String
  x : Int
  y : Int
  width : Int
  height : Int
  path : String
  depth : Nat
deriving Repr, DecidableEq

/-- The safe text-node record built by findTextNodes (code.js 1844-1870)
and processTextNode (code.js 1770-1796). -/
def safeTextNode (node : FNode) (nodePath : List String) (depth : Nat) : SafeTextNode :=
  { id := node.props.id
    name := if node.props.name = "" then "Text" else node.props.name
    ntype := node.props.ntype
    characters := node.props.characters
    fontSize := node.props.fontSize.getD 0
    fontFamily := (node.props.fontName.map (fun f => f.family)).getD ""
    fontStyle := (node.props.fontName.map (fun f => f.style)).getD ""
    x := node.props.x.getD 0
    y := node.props.y.getD 0
    width := node.props.width.getD 0
    height := node.props.height.getD 0
    path := String.intercalate " > " nodePath
    depth := depth }

mutual

/-- findTextNodes (code.js 1835-1910): same pruning and path logic as
collectNodesToProcess, but records only TEXT nodes. -/
def findTextNodes (node : FNode) (parentPath : List String) (depth : Nat) :
    List SafeTextNode :=
  match node with
  | .mk props children =>
    if props.visible = false then []
    else
      let nodePath := parentPath ++ [nodeLabel (.mk props children)]
      (if props.ntype = "TEXT"
        then [safeTextNode (.mk props children) nodePath depth] else [])
        ++ findTextNodesChildren children nodePath depth

def findTextNodesChildren (children : List FNode) (nodePath : List String) (depth : Nat) :
    List SafeTextNode :=
  match children with
  | [] => []
  | c :: rest =>
    findTextNodes c nodePath (depth + 1) ++ findTextNodesChildren rest nodePath depth

end

structure MatchingNode where
  id : String
  name : String
  ntype : String
  x : Int
  y : Int
  width : Int
  height : Int
deriving Repr, DecidableEq

/-- The minimal representation pushed by findNodesByTypes
(code.js 2448-2460). -/
def matchingNode (node : FNode) : MatchingNode :=
  { id := node.props.id
    name := nodeLabel node
    ntype := node.props.ntype
    x := node.props.x.getD 0
    y := node.props.y.getD 0
    width := node.props.width.getD 0
    height := node.props.height.getD 0 }

mutual

/-- findNodesByTypes (code.js 2442-2469): same pruning, records nodes
whose type is in `types`. -/
def findNodesByTypes (node : FNode) (types : List String) : List MatchingNode :=
  match node with
  | .mk props children =>
    if props.visible = false then []
    else
      (if types.contains props.ntype then [matchingNode (.mk props children)] else [])
        ++ findNodesByTypesChildren children types

def findNodesByTypesChildren (children : List FNode) (types : List String) :
    List MatchingNode :=
  match children with
  | [] => []
  | c :: rest => findNodesByTypes c types ++ findNodesByTypesChildren rest types

end

/-! Spec-side position machinery for the C4 characterization: a position
is the list of child indices from the root; a node contributes a
descriptor exactly when every node on its path, itself included, is
visible. -/

def nodeAt : List Nat → FNode → Option FNode
  | [], n => some n
  | i :: rest, .mk _ children =>
    match children[i]? with
    | some c => nodeAt rest c
    | none => none

def pathVisible : List Nat → FNode → Bool
  | [], n => n.props.visible
  | i :: rest, .mk props children =>
    props.visible && (match children[i]? with
      | some c => pathVisible rest c
      | none => false)

def pathLabels : List Nat → FNode → List String
  | [], n => [nodeLabel n]
  | i :: rest, .mk props children =>
    nodeLabel (.mk props children) :: (match children[i]? with
      | some c => pathLabels rest c
      | none => [])

mutual

def preorderPositions : FNode → List (List Nat)
  | .mk _ children => [] :: preorderPositionsChildren children 0

def preorderPositionsChildren : List FNode → Nat → List (List Nat)
  | [], _ => []
  | c :: rest, i =>
    (preorderPositions c).map (fun q => i :: q) ++ preorderPositionsChildren rest (i + 1)

end

/-- Specification of tree collection in the claim's terms: the
descriptors of the nodes whose whole root path is visible, in
depth-first pre-order. -/
def collectSpecByVisiblePaths (t : FNode) (p : List String) (d : Nat) :
    List NodeToProcess :=
  (preorderPositions t).filterMap (fun pos =>
    if pathVisible pos t
      then (nodeAt pos t).map (fun m =>
        { node := m, parentPath := p ++ pathLabels pos t, depth := d + pos.length })
      else none)

mutual

def heightF : FNode → Nat
  | .mk _ children => heightL children + 1

def heightL : List FNode → Nat
  | [] => 0
  | c :: rest => max (heightF c) (heightL rest)

end

theorem heightF_le_of_mem {c : FNode} : ∀ {cs : List FNode}, c ∈ cs → heightF c ≤ heightL cs := by
  intro cs
  induction cs with
  | nil => intro h; cases h
  | cons a rest ih =>
    intro h
    rcases List.mem_cons.mp h with h | h
    · subst h
      simp [heightL, Nat.le_max_left]
    · calc heightF c ≤ heightL rest := ih h
        _ ≤ heightL (a :: rest) := by simp [heightL, Nat.le_max_right]

theorem preorderPositionsChildren_shape :
    ∀ (cs : List FNode) (i : Nat), ∀ pos ∈ preorderPositionsChildren cs i,
      ∃ j q, pos = j :: q := by
  intro cs
  induction cs with
  | nil => intro i pos h; simp [preorderPositionsChildren] at h
  | cons c rest ih =>
    intro i pos h
    simp only [preorderPositionsChildren, List.mem_append, List.mem_map] at h
    rcases h with ⟨q, _, hq⟩ | h
    · exact ⟨i, q, hq.symm⟩
    · exact ih (i + 1) pos h

theorem getElem?_of_drop_eq {α : Type} {l : List α} {n : Nat} {c : α} {rest : List α}
    (h : l.drop n = c :: rest) : l[n]? = some c := by
  have hd := List.getElem?_drop l n 0
  simp [h] at hd
  simpa using hd.symm

theorem drop_succ_of_drop_eq {α : Type} {l : List α} {n : Nat} {c : α} {rest : List α}
    (h : l.drop n = c :: rest) : l.drop (n + 1) = rest := by
  have : l.drop (n + 1) = (l.drop n).drop 1 := by
    rw [List.drop_drop]
  rw [this, h]
  rfl

/-- collectNodesToProcess computes exactly the spec-side collection:
the descriptor of every node whose full root path is visible, in
depth-first pre-order. -/
theorem collectNodesToProcess_eq_spec :
    ∀ (t : FNode) (p : List String) (d : Nat),
      collectNodesToProcess t p d = collectSpecByVisiblePaths t p d := by
  intro t
  generalize hn : heightF t = n
  induction n using Nat.strong_induction_on generalizing t with
  | _ n ihn =>
    intro p d
    obtain ⟨props, children⟩ := t
    by_cases hv : props.visible = false
    · -- invisible root: both sides are empty
      rw [collectNodesToProcess]
      simp only [hv, if_true, ite_true]
      symm
      apply List.filterMap_eq_nil_iff.mpr
      intro pos hpos
      simp only [preorderPositions, List.mem_cons] at hpos
      rcases hpos with h | h
      · subst h
        simp [pathVisible, FNode.props, hv]
      · obtain ⟨j, q, hjq⟩ := preorderPositionsChildren_shape children 0 pos h
        subst hjq
        simp [pathVisible, hv]
    · -- visible root
      have hvt : props.visible = true := by
        cases h : props.visible
        · exact absurd h hv
        · rfl
      rw [collectNodesToProcess]
      simp only [hv, if_false, ite_false]
      have key : ∀ (cs : List FNode) (i : Nat), children.drop i = cs →
          collectChildren cs (p ++ [nodeLabel (FNode.mk props children)]) d
            = (preorderPositionsChildren cs i).filterMap (fun pos =>
                if pathVisible pos (FNode.mk props children)
                  then (nodeAt pos (FNode.mk props children)).map (fun m =>
                    { node := m
                      parentPath := p ++ pathLabels pos (FNode.mk props children)
                      depth := d + pos.length })
                  else none) := by
        intro cs
        induction cs with
        | nil =>
          intro i _
          simp [collectChildren, preorderPositionsChildren]
        | cons c rest ihcs =>
          intro i hdrop
          have hci : children[i]? = some c := getElem?_of_drop_eq hdrop
          have hrest : children.drop (i + 1) = rest := drop_succ_of_drop_eq hdrop
          have hmem : c ∈ children := by
            have : c ∈ children.drop i := by
              rw [hdrop]
              exact List.mem_cons_self c rest
            exact List.mem_of_mem_drop this
          have hheight : heightF c < n := by
            have h1 : heightF c ≤ heightL children := heightF_le_of_mem hmem
            have h2 : heightF (FNode.mk props children) = heightL children + 1 := rfl
            omega
          have ihc := ihn (heightF c) hheight c rfl
            (p ++ [nodeLabel (FNode.mk props children)]) (d + 1)
          rw [collectChildren]
          simp only [preorderPositionsChildren, List.filterMap_append,
            List.filterMap_map]
          rw [ihcs (i + 1) hrest]
          congr 1
          rw [ihc]
          unfold collectSpecByVisiblePaths
          apply List.filterMap_congr
          intro q _
          simp only [Function.comp]
          have e1 : pathVisible (i :: q) (FNode.mk props children) = pathVisible q c := by
            simp [pathVisible, hci, hvt]
          have e2 : nodeAt (i :: q) (FNode.mk props children) = nodeAt q c := by
            simp [nodeAt, hci]
          have e3 : pathLabels (i :: q) (FNode.mk props children)
              = nodeLabel (FNode.mk props children) :: pathLabels q c := by
            simp [pathLabels, hci]
          simp only [e1, e2, e3, List.length_cons]
          have e4 : p ++ (nodeLabel (FNode.mk props children) :: pathLabels q c)
              = (p ++ [nodeLabel (FNode.mk props children)]) ++ pathLabels q c := by
            simp
          have e5 : d + (q.length + 1) = d + 1 + q.length := by omega
          simp only [e4, e5]
      unfold collectSpecByVisiblePaths
      simp only [preorderPositions, List.filterMap_cons]
      have e0 : pathVisible [] (FNode.mk props children) = true := hvt
      simp only [e0, if_true, ite_true, nodeAt, Option.map_some]
      rw [key children 0 (by simp)]
      simp [pathLabels, nodeAt]

/-- findTextNodes records exactly the TEXT entries of the pruned
pre-order collection, in the same order. -/
theorem findTextNodes_eq_filter_collect :
    ∀ (t : FNode) (p : List String) (d : Nat),
      findTextNodes t p d
        = ((collectNodesToProcess t p d).filter
            (fun i => decide (i.node.props.ntype = "TEXT"))).map
            (fun i => safeTextNode i.node i.parentPath i.depth) := by
  intro t
  generalize hn : heightF t = n
  induction n using Nat.strong_induction_on generalizing t with
  | _ n ihn =>
    intro p d
    obtain ⟨props, children⟩ := t
    by_cases hv : props.visible = false
    · rw [findTextNodes, collectNodesToProcess]
      simp [hv]
    · rw [findTextNodes, collectNodesToProcess]
      have hvt2 : props.visible = true := by
        cases hb : props.visible
        · exact absurd hb hv
        · rfl
      simp only [hvt2, Bool.true_eq_false, if_false, ite_false]
      have hch : ∀ c ∈ children, heightF c < n := by
        intro c hc
        have h1 := heightF_le_of_mem hc
        have h2 : heightF (FNode.mk props children) = heightL children + 1 := rfl
        omega
      have key : ∀ (cs : List FNode), (∀ c ∈ cs, heightF c < n) →
          ∀ (np : List String) (dd : Nat),
          findTextNodesChildren cs np dd
            = ((collectChildren cs np dd).filter
                (fun i => decide (i.node.props.ntype = "TEXT"))).map
                (fun i => safeTextNode i.node i.parentPath i.depth) := by
        intro cs
        induction cs with
        | nil =>
          intro _ np dd
          simp [findTextNodesChildren, collectChildren]
        | cons c rest ihcs =>
          intro hcs np dd
          rw [findTextNodesChildren, collectChildren]
          rw [List.filter_append, List.map_append]
          rw [ihn (heightF c) (hcs c (List.mem_cons_self c rest)) c rfl np (dd + 1)]
          rw [ihcs (fun x hx => hcs x (List.mem_cons_of_mem c hx)) np dd]
      rw [key children hch (p ++ [nodeLabel (FNode.mk props children)]) d]
      simp only [List.filter_cons]
      by_cases ht : props.ntype = "TEXT"
      · simp [ht, FNode.props]
      · simp [ht, FNode.props]

/-- findNodesByTypes records exactly the type-matching entries of the
pruned pre-order collection, in the same order (for any path and depth
accumulator, since it records neither). -/
theorem findNodesByTypes_eq_filter_collect :
    ∀ (t : FNode) (types : List String) (p : List String) (d : Nat),
      findNodesByTypes t types
        = ((collectNodesToProcess t p d).filter
            (fun i => types.contains i.node.props.ntype)).map
            (fun i => matchingNode i.node) := by
  intro t
  generalize hn : heightF t = n
  induction n using Nat.strong_induction_on generalizing t with
  | _ n ihn =>
    intro types p d
    obtain ⟨props, children⟩ := t
    by_cases hv : props.visible = false
    · rw [findNodesByTypes, collectNodesToProcess]
      simp [hv]
    · rw [findNodesByTypes, collectNodesToProcess]
      have hvt2 : props.visible = true := by
        cases hb : props.visible
        · exact absurd hb hv
        · rfl
      simp only [hvt2, Bool.true_eq_false, if_false, ite_false]
      have hch : ∀ c ∈ children, heightF c < n := by
        intro c hc
        have h1 := heightF_le_of_mem hc
        have h2 : heightF (FNode.mk props children) = heightL children + 1 := rfl
        omega
      have key : ∀ (cs : List FNode), (∀ c ∈ cs, heightF c < n) →
          ∀ (np : List String) (dd : Nat),
          findNodesByTypesChildren cs types
            = ((collectChildren cs np dd).filter
                (fun i => types.contains i.node.props.ntype)).map
                (fun i => matchingNode i.node) := by
        intro cs
        induction cs with
        | nil =>
          intro _ np dd
          simp [findNodesByTypesChildren, collectChildren]
        | cons c rest ihcs =>
          intro hcs np dd
          rw [findNodesByTypesChildren, collectChildren]
          rw [List.filter_append, List.map_append]
          rw [ihn (heightF c) (hcs c (List.mem_cons_self c rest)) c rfl types np (dd + 1)]
          rw [ihcs (fun x hx => hcs x (List.mem_cons_of_mem c hx)) np dd]
      rw [key children hch (p ++ [nodeLabel (FNode.mk props children)]) d]
      simp only [List.filter_cons]
      by_cases ht : props.ntype ∈ types
      · simp [ht, FNode.props]
      · simp [ht, FNode.props]

theorem walkers_invisible_nil (t : FNode) (p : List String) (d : Nat) (types : List String)
    (h : t.props.visible = false) :
    collectNodesToProcess t p d = [] ∧ findTextNodes t p d = [] ∧
    findNodesByTypes t types = [] := by
  obtain ⟨props, children⟩ := t
  have h' : props.visible = false := h
  refine ⟨?_, ?_, ?_⟩
  · rw [collectNodesToProcess]
    simp [h']
  · rw [findTextNodes]
    simp [h']
  · rw [findNodesByTypes]
    simp [h']

theorem pathVisible_false_of_invisible :
    ∀ (pos : List Nat) (t sub : FNode) (q : List Nat),
      nodeAt pos t = some sub → sub.props.visible = false →
      pathVisible (pos ++ q) t = false := by
  intro pos
  induction pos with
  | nil =>
    intro t sub q hat hvis
    simp only [nodeAt, Option.some_inj] at hat
    subst hat
    cases q with
    | nil => simpa [pathVisible] using hvis
    | cons i rest =>
      obtain ⟨props, children⟩ := t
      have h' : props.visible = false := hvis
      simp [pathVisible, h']
  | cons i rest ih =>
    intro t sub q hat hvis
    obtain ⟨props, children⟩ := t
    simp only [nodeAt] at hat
    cases hc : children[i]? with
    | none =>
      rw [hc] at hat
      simp at hat
    | some c =>
      rw [hc] at hat
      simp only [List.cons_append, pathVisible, hc]
      show (props.visible && pathVisible (rest ++ q) c) = false
      rw [ih c sub q hat hvis]
      simp

/-- C4: for every tree and every node in it whose visible flag is false,
tree collection (collectNodesToProcess, findTextNodes, findNodesByTypes)
produces no descriptor for that node and none for any of its
descendants, regardless of the visibility flags of the nodes nested
inside the invisible subtree: an invisible root yields nothing from all
three walkers, and every position at or below an invisible node has a
non-visible root path and is therefore excluded from the pre-order
characterization.  Visible nodes outside such subtrees are all collected
in depth-first pre-order: collectNodesToProcess equals the visible-path
pre-order specification, and findTextNodes and findNodesByTypes are its
type-filtered projections in the same order. -/
theorem invisible_subtrees_pruned :
    (∀ (t : FNode) (p : List String) (d : Nat) (types : List String),
        t.props.visible = false →
        collectNodesToProcess t p d = [] ∧ findTextNodes t p d = [] ∧
        findNodesByTypes t types = []) ∧
    (∀ (t : FNode) (p : List String) (d : Nat),
        collectNodesToProcess t p d = collectSpecByVisiblePaths t p d) ∧
    (∀ (t sub : FNode) (pos q : List Nat),
        nodeAt pos t = some sub → sub.props.visible = false →
        pathVisible (pos ++ q) t = false) ∧
    (∀ (t : FNode) (p : List String) (d : Nat),
        findTextNodes t p d
          = ((collectNodesToProcess t p d).filter
              (fun i => decide (i.node.props.ntype = "TEXT"))).map
              (fun i => safeTextNode i.node i.parentPath i.depth)) ∧
    (∀ (t : FNode) (types p : List String) (d : Nat),
        findNodesByTypes t types
          = ((collectNodesToProcess t p d).filter
              (fun i => types.contains i.node.props.ntype)).map
              (fun i => matchingNode i.node)) :=
  ⟨fun t p d types h => walkers_invisible_nil t p d types h,
   fun t p d => collectNodesToProcess_eq_spec t p d,
   fun t sub pos q hat hvis => pathVisible_false_of_invisible pos t sub q hat hvis,
   fun t p d => findTextNodes_eq_filter_collect t p d,
   fun t types p d => findNodesByTypes_eq_filter_collect t types p d⟩

def treeW1 : FNode :=
  .mk { id := "2:1", name := "Hidden", ntype := "FRAME", visible := false }
    [.mk { id := "2:2", name := "Inner", ntype := "TEXT", visible := true } []]

def treeW : FNode :=
  .mk { id := "1:1", name := "Root", ntype := "FRAME", visible := true }
    [treeW1, .mk { id := "2:3", name := "Label", ntype := "TEXT", visible := true } []]

/-- Witness for C4 on a concrete tree whose invisible child subtree
contains a visible TEXT node. -/
theorem invisible_subtrees_pruned_witness :
    (treeW1.props.visible = false ∧
      (collectNodesToProcess treeW1 [] 0 = [] ∧ findTextNodes treeW1 [] 0 = [] ∧
       findNodesByTypes treeW1 ["TEXT"] = [])) ∧
    (collectNodesToProcess treeW [] 0 = collectSpecByVisiblePaths treeW [] 0) ∧
    (nodeAt [0] treeW = some treeW1 ∧ treeW1.props.visible = false ∧
      pathVisible ([0] ++ [0]) treeW = false) ∧
    (findTextNodes treeW [] 0
      = ((collectNodesToProcess treeW [] 0).filter
          (fun i => decide (i.node.props.ntype = "TEXT"))).map
          (fun i => safeTextNode i.node i.parentPath i.depth)) ∧
    (findNodesByTypes treeW ["TEXT"]
      = ((collectNodesToProcess treeW [] 0).filter
          (fun i => (["TEXT"] : List String).contains i.node.props.ntype)).map
          (fun i => matchingNode i.node)) :=
  ⟨⟨rfl, invisible_subtrees_pruned.1 treeW1 [] 0 ["TEXT"] rfl⟩,
   invisible_subtrees_pruned.2.1 treeW [] 0,
   ⟨rfl, rfl, invisible_subtrees_pruned.2.2.1 treeW treeW1 [0] [0] rfl rfl⟩,
   invisible_subtrees_pruned.2.2.2.1 treeW [] 0,
   invisible_subtrees_pruned.2.2.2.2 treeW ["TEXT"] [] 0⟩

/-! ## getDelimiterPos (code.js 1352-1367)

The JS string is embedded as a character list; str[i] at or beyond the
length is undefined and never equal to the delimiter, matching the none
case of the optional index.  The source's final filter(Boolean) never
removes anything (arrays are truthy) and is omitted. -/
def getDelimiterPos (str : List Char) (delimiter : Char) (startIdx endIdx : Nat) :
    List (Nat × Nat) :=
  let scan := (List.range' startIdx (endIdx - startIdx)).foldl
    (fun (acc : List (Nat × Nat) × Nat) (i : Nat) =>
      if str[i]? = some delimiter ∧ i + startIdx ≠ endIdx ∧ acc.2 ≠ i + startIdx
        then (acc.1 ++ [(acc.2, i + startIdx)], i + startIdx + 1)
        else acc)
    ([], startIdx)
  if scan.2 ≠ endIdx then scan.1 ++ [(scan.2, endIdx)] else scan.1

/-- Reference scan following the spec and claim wording exactly: close
the segment [pendingStart, delimiterIndex] when the delimiter is seen at
a position that is not the end of the range and the pending segment is
non-empty, then continue right after the delimiter; append a final
non-empty pending segment reaching endIdx. -/
def getDelimiterPosSpec (str : List Char) (delimiter : Char) (startIdx endIdx : Nat) :
    List (Nat × Nat) :=
  let scan := (List.range' startIdx (endIdx - startIdx)).foldl
    (fun (acc : List (Nat × Nat) × Nat) (i : Nat) =>
      if str[i]? = some delimiter ∧ i ≠ endIdx ∧ acc.2 ≠ i
        then (acc.1 ++ [(acc.2, i)], i + 1)
        else acc)
    ([], startIdx)
  if scan.2 ≠ endIdx then scan.1 ++ [(scan.2, endIdx)] else scan.1

/-- For startIdx 0 the source scan and the described scan coincide;
the divergence below is purely the i + startIdx offset. -/
theorem getDelimiterPos_zero_eq_spec (str : List Char) (delimiter : Char) (endIdx : Nat) :
    getDelimiterPos str delimiter 0 endIdx = getDelimiterPosSpec str delimiter 0 endIdx := by
  unfold getDelimiterPos getDelimiterPosSpec
  simp only [Nat.add_zero]

/-- C5: evaluating getDelimiterPos on the string "abc d" with the space
delimiter over the sub-range [3, 5): the scan described by the spec
yields the single segment (3, 5), but the source adds startIdx to the
loop index a second time and returns (3, 6) and (7, 5), boundaries
outside [startIdx, endIdx]; the claim fails for startIdx > 0. -/
theorem getDelimiterPos_offset_bug :
    getDelimiterPos "abc d".toList ' ' 3 5 = [(3, 6), (7, 5)] ∧
    getDelimiterPosSpec "abc d".toList ' ' 3 5 = [(3, 5)] ∧
    getDelimiterPos "abc d".toList ' ' 3 5 ≠ getDelimiterPosSpec "abc d".toList ' ' 3 5 ∧
    ¬ (∀ seg ∈ getDelimiterPos "abc d".toList ' ' 3 5, 3 ≤ seg.1 ∧ seg.2 ≤ 5) := by
  refine ⟨by decide, by decide, by decide, by decide⟩

/-! ## setCharactersWithSmartMatchFont re-application loop
(code.js 1423-1457) -/

/-- JS String.prototype.indexOf(c, fromIndex): index of the first
occurrence at or after fromIndex, or -1. -/
def jsIndexOf (s : List Char) (c : Char) (fromIdx : Nat) : Int :=
  match (List.range s.length).find?
      (fun i => decide (fromIdx ≤ i) && decide (s[i]? = some c)) with
  | some i => (i : Int)
  | none => -1

structure FontRun where
  family : String
  style : String
  delimiter : Char
deriving Repr, DecidableEq

structure RangeAssign where
  startPos : Nat
  endPos : Nat
  font : FontName
deriving Repr, DecidableEq

/-- One iteration of the re-application loop (code.js 1443-1455): the
state is the setRangeFontName assignments emitted so far and the cursor
prevPos. -/
def smartMatchStep (newChars : List Char) (acc : List RangeAssign × Nat) (run : FontRun) :
    List RangeAssign × Nat :=
  if acc.2 < newChars.length then
    let delimeterPos := jsIndexOf newChars run.delimiter acc.2
    let endPos := if (acc.2 : Int) < delimeterPos then delimeterPos.toNat
      else newChars.length
    (acc.1 ++ [{ startPos := acc.2, endPos := endPos, font := ⟨run.family, run.style⟩ }],
     endPos + 1)
  else acc

/-- setCharactersWithSmartMatchFont after the fonts are loaded, the
fallback font applied and the text overwritten (code.js 1439-1456):
walks the sorted run list over the new text and returns the emitted
range assignments together with the function's return value, which is
always true. -/
def setCharactersWithSmartMatchFont (newChars : List Char) (rangeTree : List FontRun) :
    List RangeAssign × Bool :=
  ((rangeTree.foldl (smartMatchStep newChars) ([], 0)).1, true)

/-- The walk as claim C6 words it: the end of a run's range is the index
of the next occurrence of its delimiter located at or after prevPos in
the new text, or the text's length when no such delimiter exists. -/
def smartApplyClaimed (newChars : List Char) : List FontRun → Nat → List RangeAssign
  | [], _ => []
  | run :: rest, prevPos =>
    if prevPos < newChars.length then
      let d := jsIndexOf newChars run.delimiter prevPos
      let endPos := if 0 ≤ d then d.toNat else newChars.length
      { startPos := prevPos, endPos := endPos, font := ⟨run.family, run.style⟩ }
        :: smartApplyClaimed newChars rest (endPos + 1)
    else smartApplyClaimed newChars rest prevPos

/-- The walk with the code's actual end rule: the end is the found
delimiter index only when it is strictly greater than prevPos; when the
first occurrence at or after prevPos is exactly at prevPos, or when
there is none, the end is the text's length. -/
def smartApplyAmended (newChars : List Char) : List FontRun → Nat → List RangeAssign
  | [], _ => []
  | run :: rest, prevPos =>
    if prevPos < newChars.length then
      let d := jsIndexOf newChars run.delimiter prevPos
      let endPos := if (prevPos : Int) < d then d.toNat else newChars.length
      { startPos := prevPos, endPos := endPos, font := ⟨run.family, run.style⟩ }
        :: smartApplyAmended newChars rest (endPos + 1)
    else smartApplyAmended newChars rest prevPos

theorem smartMatch_foldl_eq (newChars : List Char) :
    ∀ (runs : List FontRun) (acc : List RangeAssign) (p : Nat),
      (runs.foldl (smartMatchStep newChars) (acc, p)).1
        = acc ++ smartApplyAmended newChars runs p := by
  intro runs
  induction runs with
  | nil =>
    intro acc p
    simp [smartApplyAmended]
  | cons run rest ih =>
    intro acc p
    rw [List.foldl_cons]
    by_cases hp : p < newChars.length
    · rw [smartApplyAmended]
      simp only [smartMatchStep, hp, if_true, ite_true, ih, List.append_assoc,
        List.singleton_append]
    · rw [smartApplyAmended]
      simp only [smartMatchStep, hp, if_false, ite_false, ih]

/-- Counterexample to C6 as stated: on new text " a" (delimiter space at
position 0) with one space-delimited run, the claim's at-or-after rule
ends the range at index 0, but the code requires a strictly greater
index and falls back to the text length, assigning [0, 2). -/
theorem smart_match_end_rule_counterexample :
    (setCharactersWithSmartMatchFont [' ', 'a'] [⟨"X", "Regular", ' '⟩]).1
        = [⟨0, 2, ⟨"X", "Regular"⟩⟩] ∧
    smartApplyClaimed [' ', 'a'] [⟨"X", "Regular", ' '⟩] 0
        = [⟨0, 0, ⟨"X", "Regular"⟩⟩] ∧
    (setCharactersWithSmartMatchFont [' ', 'a'] [⟨"X", "Regular", ' '⟩]).1
        ≠ smartApplyClaimed [' ', 'a'] [⟨"X", "Regular", ' '⟩] 0 := by
  refine ⟨by decide, by decide, by decide⟩

/-- C6 amended: after the fallback font is applied and the text is
overwritten, the sorted FontRun list is walked with a cursor prevPos
starting at 0 such that for every run still in range: the end of its
range is the index d of the first occurrence of the run's delimiter at
or after prevPos in the new text when d is strictly greater than
prevPos, and the new text's length otherwise (no such delimiter, or the
occurrence exactly at prevPos); the run's font is assigned to
[prevPos, end); and prevPos advances to end + 1, skipping the delimiter
character. -/
theorem smart_match_applies_amended (newChars : List Char) (rangeTree : List FontRun) :
    (setCharactersWithSmartMatchFont newChars rangeTree).1
      = smartApplyAmended newChars rangeTree 0 ∧
    (setCharactersWithSmartMatchFont newChars rangeTree).2 = true := by
  constructor
  · unfold setCharactersWithSmartMatchFont
    rw [smartMatch_foldl_eq newChars rangeTree [] 0]
    simp
  · rfl

theorem jsIndexOf_spec (s : List Char) (c : Char) (f : Nat) :
    jsIndexOf s c f = -1 ∨
    ((jsIndexOf s c f).toNat < s.length ∧ (f : Int) ≤ jsIndexOf s c f) := by
  unfold jsIndexOf
  cases hf : (List.range s.length).find?
      (fun i => decide (f ≤ i) && decide (s[i]? = some c)) with
  | none => left; rfl
  | some i =>
    right
    have hmem := List.mem_of_find?_eq_some hf
    have hpred := List.find?_some hf
    simp only [List.mem_range] at hmem
    simp only [Bool.and_eq_true, decide_eq_true_eq] at hpred
    constructor
    · simpa using hmem
    · have hfi : (f : Int) ≤ (i : Int) := by exact_mod_cast hpred.1
      simpa using hfi

theorem smartApplyAmended_valid (newChars : List Char) :
    ∀ (runs : List FontRun) (p : Nat) (a : RangeAssign),
      a ∈ smartApplyAmended newChars runs p →
      a.startPos < newChars.length ∧ a.startPos < a.endPos ∧
      a.endPos ≤ newChars.length := by
  intro runs
  induction runs with
  | nil =>
    intro p a ha
    simp [smartApplyAmended] at ha
  | cons run rest ih =>
    intro p a ha
    rw [smartApplyAmended] at ha
    by_cases hp : p < newChars.length
    · simp only [hp, if_true, ite_true, List.mem_cons] at ha
      rcases ha with ha | ha
      · subst ha
        refine ⟨hp, ?_, ?_⟩
        · by_cases hd : (p : Int) < jsIndexOf newChars run.delimiter p
          · simp only [hd, if_true, ite_true]
            omega
          · simp only [hd, if_false, ite_false]
            exact hp
        · by_cases hd : (p : Int) < jsIndexOf newChars run.delimiter p
          · simp only [hd, if_true, ite_true]
            rcases jsIndexOf_spec newChars run.delimiter p with hn | ⟨hlt, _⟩
            · rw [hn] at hd
              omega
            · omega
          · simp only [hd, if_false, ite_false, Nat.le_refl]
      · exact ih _ a ha
    · simp only [hp, if_false, ite_false] at ha
      exact ih _ a ha

theorem smartMatch_foldl_skip (newChars : List Char) :
    ∀ (runs : List FontRun) (acc : List RangeAssign) (p : Nat),
      newChars.length ≤ p →
      runs.foldl (smartMatchStep newChars) (acc, p) = (acc, p) := by
  intro runs
  induction runs with
  | nil =>
    intro acc p _
    rfl
  | cons run rest ih =>
    intro acc p hp
    rw [List.foldl_cons]
    have hstep : smartMatchStep newChars (acc, p) run = (acc, p) := by
      unfold smartMatchStep
      have : ¬ (acc, p).2 < newChars.length := by
        simp only
        omega
      simp [this]
    rw [hstep, ih acc p hp]

/-- C10: in the smart-strategy re-application loop, each recorded
FontRun is applied only while the cursor prevPos is strictly less than
the new text's length, so every emitted assignment has a start strictly
inside the new text and an end within it (no out-of-range range
assignment is attempted); once the cursor reaches or passes the end of
the new text, every remaining recorded run is silently skipped without
changing the state; and the operation still returns true. -/
theorem smart_match_skips_remaining_runs :
    (∀ (newChars : List Char) (rangeTree : List FontRun) (a : RangeAssign),
        a ∈ (setCharactersWithSmartMatchFont newChars rangeTree).1 →
        a.startPos < newChars.length ∧ a.startPos < a.endPos ∧
        a.endPos ≤ newChars.length) ∧
    (∀ (newChars : List Char) (rangeTree : List FontRun) (acc : List RangeAssign) (p : Nat),
        newChars.length ≤ p →
        rangeTree.foldl (smartMatchStep newChars) (acc, p) = (acc, p)) ∧
    (∀ (newChars : List Char) (rangeTree : List FontRun),
        (setCharactersWithSmartMatchFont newChars rangeTree).2 = true) := by
  refine ⟨?_, ?_, ?_⟩
  · intro newChars rangeTree a ha
    unfold setCharactersWithSmartMatchFont at ha
    rw [smartMatch_foldl_eq newChars rangeTree [] 0] at ha
    simp only [List.nil_append] at ha
    exact smartApplyAmended_valid newChars rangeTree 0 a ha
  · intro newChars rangeTree acc p hp
    exact smartMatch_foldl_skip newChars rangeTree acc p hp
  · intro newChars rangeTree
    rfl

/-- Witness for C10: one run assigns [0, 1) on the one-character text
"a"; the second recorded run is skipped because the cursor has passed
the end, and the operation returns true. -/
theorem smart_match_skips_remaining_runs_witness :
    ((⟨0, 1, ⟨"F", "R"⟩⟩ : RangeAssign)
        ∈ (setCharactersWithSmartMatchFont ['a']
            [⟨"F", "R", ' '⟩, ⟨"G", "R", ' '⟩]).1) ∧
    ((0 : Nat) < 1 ∧ (0 : Nat) < 1 ∧ (1 : Nat) ≤ 1) ∧
    (1 : Nat) ≤ 2 ∧
    ([⟨"G", "R", ' '⟩] : List FontRun).foldl (smartMatchStep ['a'])
        ([⟨0, 1, ⟨"F", "R"⟩⟩], 2) = ([⟨0, 1, ⟨"F", "R"⟩⟩], 2) ∧
    (setCharactersWithSmartMatchFont ['a'] [⟨"F", "R", ' '⟩, ⟨"G", "R", ' '⟩]).2 = true :=
  ⟨by decide,
   smart_match_skips_remaining_runs.1 ['a'] [⟨"F", "R", ' '⟩, ⟨"G", "R", ' '⟩]
     ⟨0, 1, ⟨"F", "R"⟩⟩ (by decide),
   by decide,
   smart_match_skips_remaining_runs.2.1 ['a'] [⟨"G", "R", ' '⟩] [⟨0, 1, ⟨"F", "R"⟩⟩] 2
     (by decide),
   smart_match_skips_remaining_runs.2.2 ['a'] [⟨"F", "R", ' '⟩, ⟨"G", "R", ' '⟩]⟩

/-! ## The prevail strategy of setCharacters (code.js 1264-1280) -/

def fontKey (f : FontName) : String := f.family ++ "::" ++ f.style

/-- fontHashTree[key] = fontHashTree[key] ? fontHashTree[key] + 1 : 1
(code.js 1269): a JS object with non-index string keys preserves
insertion order, so the tree is an association list in first-encounter
order. -/
def tallyInsert (m : List (String × Nat)) (k : String) : List (String × Nat) :=
  if m.any (fun p => p.1 = k)
    then m.map (fun p => if p.1 = k then (p.1, p.2 + 1) else p)
    else m ++ [(k, 1)]

/-- The prevail tally loop (code.js 1266-1270): for i from 1 while
i < length, tally the font of the single-character span [i-1, i), i.e.
the font of character i-1 — the final character is never visited.
charFonts is the node's per-character font list
(getRangeFontName(i-1, i)). -/
def prevailTally (charFonts : List FontName) : List (String × Nat) :=
  (List.range' 1 (charFonts.length - 1)).foldl
    (fun m i =>
      match charFonts[i - 1]? with
      | some f => tallyInsert m (fontKey f)
      | none => m)
    []

/-- Object.entries(tree).sort((a, b) => b[1] - a[1])[0] (code.js
1271-1273): ECMAScript sort is stable, so the head of the descending
sort is the first entry attaining the maximal count in insertion
order, here computed by a strict-improvement fold. -/
def prevailPick (m : List (String × Nat)) : Option (String × Nat) :=
  m.foldl
    (fun best p =>
      match best with
      | none => some p
      | some b => if p.2 > b.2 then some p else best)
    none

/-- The tally as claim C7 words it: one occurrence per single-character
span of the node's text, every character counted. -/
def prevailTallyClaimed (charFonts : List FontName) : List (String × Nat) :=
  charFonts.foldl (fun m f => tallyInsert m (fontKey f)) []

/-- Counterexample to C7 as stated: on a three-character node with fonts
A, B, B the loop visits only characters 0 and 1, so both keys tally 1
and the first-encountered key A::Regular wins, while counting every
character gives B::Regular the strictly highest count 2. -/
theorem prevail_last_char_counterexample :
    prevailPick (prevailTally [⟨"A", "Regular"⟩, ⟨"B", "Regular"⟩, ⟨"B", "Regular"⟩])
        = some ("A::Regular", 1) ∧
    prevailPick (prevailTallyClaimed [⟨"A", "Regular"⟩, ⟨"B", "Regular"⟩, ⟨"B", "Regular"⟩])
        = some ("B::Regular", 2) ∧
    prevailPick (prevailTally [⟨"A", "Regular"⟩, ⟨"B", "Regular"⟩, ⟨"B", "Regular"⟩])
        ≠ prevailPick (prevailTallyClaimed
            [⟨"A", "Regular"⟩, ⟨"B", "Regular"⟩, ⟨"B", "Regular"⟩]) := by
  refine ⟨by decide, by decide, by decide⟩

/-- Keys in order of first occurrence (the enumeration order of a JS
object with string keys). -/
def firstOccKeys (l : List String) : List String :=
  l.foldl (fun acc k => if k ∈ acc then acc else acc ++ [k]) []

theorem firstOccKeys_snoc (l : List String) (k : String) :
    firstOccKeys (l ++ [k])
      = if k ∈ firstOccKeys l then firstOccKeys l else firstOccKeys l ++ [k] := by
  unfold firstOccKeys
  rw [List.foldl_append]
  rfl

theorem mem_firstOccKeys (x : String) : ∀ (l : List String), x ∈ firstOccKeys l ↔ x ∈ l := by
  intro l
  induction l using List.reverseRecOn with
  | nil => simp [firstOccKeys]
  | append_singleton xs k ih =>
    rw [firstOccKeys_snoc]
    by_cases hk : k ∈ firstOccKeys xs
    · simp only [hk, if_true, ite_true, ih, List.mem_append, List.mem_singleton]
      constructor
      · intro hx
        exact Or.inl hx
      · intro hx
        rcases hx with hx | hx
        · exact hx
        · subst hx
          exact ih.mp hk
    · simp only [hk, if_false, ite_false, List.mem_append, List.mem_singleton, ih]

theorem tally_fold_index (l : List FontName) :
    ∀ c, c ≤ l.length →
      (List.range' 1 c).foldl
        (fun m i => match l[i - 1]? with
          | some f => tallyInsert m (fontKey f)
          | none => m) []
      = (l.take c).foldl (fun m f => tallyInsert m (fontKey f)) [] := by
  intro c
  induction c with
  | zero => intro _; rfl
  | succ c ih =>
    intro hc
    have hconcat : List.range' 1 (c + 1) = List.range' 1 c ++ [1 + c] := by
      have h := @List.range'_concat 1 1 c
      simpa using h
    rw [hconcat, List.foldl_append, ih (by omega), List.take_succ]
    have hc' : c < l.length := by omega
    have hl : l[c]? = some (l.get ⟨c, hc'⟩) := by
      simp [List.getElem?_eq_getElem hc']
    rw [List.foldl_append, hl]
    simp only [List.foldl_cons, List.foldl_nil, Option.toList_some]
    have hidx : 1 + c - 1 = c := by omega
    rw [hidx, hl]

theorem prevailTally_eq_take (charFonts : List FontName) :
    prevailTally charFonts
      = prevailTallyClaimed (charFonts.take (charFonts.length - 1)) := by
  unfold prevailTally prevailTallyClaimed
  exact tally_fold_index charFonts (charFonts.length - 1) (by omega)

/-- The tally is the association list over the keys in first-encounter
order, each paired with its occurrence count. -/
theorem prevailTallyClaimed_spec (fonts : List FontName) :
    prevailTallyClaimed fonts
      = (firstOccKeys (fonts.map fontKey)).map
          (fun g => (g, fonts.countP (fun f => fontKey f = g))) := by
  induction fonts using List.reverseRecOn with
  | nil => rfl
  | append_singleton fs f ih =>
    have hsnoc : prevailTallyClaimed (fs ++ [f])
        = tallyInsert (prevailTallyClaimed fs) (fontKey f) := by
      unfold prevailTallyClaimed
      rw [List.foldl_append]
      rfl
    rw [hsnoc, ih, List.map_append]
    simp only [List.map_cons, List.map_nil]
    have hcnt : ∀ g, (fs ++ [f]).countP (fun x => fontKey x = g)
        = fs.countP (fun x => fontKey x = g) + (if fontKey f = g then 1 else 0) := by
      intro g
      rw [List.countP_append]
      simp [List.countP_cons]
    by_cases hmem : fontKey f ∈ fs.map fontKey
    · have hocc : fontKey f ∈ firstOccKeys (fs.map fontKey) :=
        (mem_firstOccKeys _ _).mpr hmem
      rw [firstOccKeys_snoc]
      simp only [hocc, if_true, ite_true]
      have hany : ((firstOccKeys (fs.map fontKey)).map
          (fun g => (g, fs.countP (fun x => fontKey x = g)))).any
            (fun p => p.1 = fontKey f) = true := by
        rw [List.any_eq_true]
        exact ⟨(fontKey f, fs.countP (fun x => fontKey x = fontKey f)),
          List.mem_map_of_mem _ hocc, by simp⟩
      unfold tallyInsert
      rw [if_pos hany, List.map_map]
      apply List.map_congr_left
      intro g _
      simp only [Function.comp]
      rw [hcnt g]
      by_cases hg : g = fontKey f
      · subst hg
        simp
      · have : ¬ (fontKey f = g) := fun hh => hg hh.symm
        simp [hg, this]
    · have hocc : fontKey f ∉ firstOccKeys (fs.map fontKey) := fun hh =>
        hmem ((mem_firstOccKeys _ _).mp hh)
      rw [firstOccKeys_snoc]
      simp only [hocc, if_false, ite_false]
      have hany : ((firstOccKeys (fs.map fontKey)).map
          (fun g => (g, fs.countP (fun x => fontKey x = g)))).any
            (fun p => p.1 = fontKey f) = false := by
        rw [Bool.eq_false_iff]
        intro hcon
        rw [List.any_eq_true] at hcon
        obtain ⟨p, hp, hpk⟩ := hcon
        obtain ⟨g, hg, hgp⟩ := List.mem_map.mp hp
        apply hocc
        rw [← hgp] at hpk
        simp only [decide_eq_true_eq] at hpk
        exact hpk ▸ hg
      unfold tallyInsert
      rw [if_neg (by simp [hany]), List.map_append]
      congr 1
      · apply List.map_congr_left
        intro g hg
        rw [hcnt g]
        have hgf : ¬ (fontKey f = g) := by
          intro hh
          apply hocc
          rw [hh]
          exact hg
        simp [hgf]
      · simp only [List.map_cons, List.map_nil]
        rw [hcnt (fontKey f)]
        have hz : fs.countP (fun x => fontKey x = fontKey f) = 0 := by
          rw [List.countP_eq_zero]
          intro a ha
          simp only [decide_eq_true_eq]
          intro hcon
          apply hmem
          rw [← hcon]
          exact List.mem_map_of_mem _ ha
        simp [hz]

def pickStep (best : Option (String × Nat)) (p : String × Nat) : Option (String × Nat) :=
  match best with
  | none => some p
  | some b => if p.2 > b.2 then some p else best

theorem prevailPick_eq_foldl (m : List (String × Nat)) :
    prevailPick m = m.foldl pickStep none := rfl

theorem pick_go :
    ∀ (m : List (String × Nat)) (b : String × Nat),
      (m.foldl pickStep (some b) = some b ∧ ∀ q ∈ m, q.2 ≤ b.2) ∨
      (∃ e pre post, m.foldl pickStep (some b) = some e ∧ m = pre ++ e :: post ∧
        b.2 < e.2 ∧ (∀ q ∈ pre, q.2 < e.2) ∧ (∀ q ∈ post, q.2 ≤ e.2)) := by
  intro m
  induction m with
  | nil =>
    intro b
    left
    exact ⟨rfl, by simp⟩
  | cons q rest ih =>
    intro b
    rw [List.foldl_cons]
    by_cases hq : q.2 > b.2
    · have hstep : pickStep (some b) q = some q := by
        unfold pickStep
        simp [hq]
      rw [hstep]
      rcases ih q with ⟨hf, hall⟩ | ⟨e, pre, post, hf, heq, hb, hpre, hpost⟩
      · right
        exact ⟨q, [], rest, hf, rfl, hq, by simp, hall⟩
      · right
        refine ⟨e, q :: pre, post, hf, by rw [heq, List.cons_append], ?_, ?_, hpost⟩
        · omega
        · intro x hx
          rcases List.mem_cons.mp hx with hx | hx
          · subst hx
            omega
          · exact hpre x hx
    · have hstep : pickStep (some b) q = some b := by
        unfold pickStep
        simp [hq]
      rw [hstep]
      rcases ih b with ⟨hf, hall⟩ | ⟨e, pre, post, hf, heq, hb, hpre, hpost⟩
      · left
        refine ⟨hf, ?_⟩
        intro x hx
        rcases List.mem_cons.mp hx with hx | hx
        · subst hx
          omega
        · exact hall x hx
      · right
        refine ⟨e, q :: pre, post, hf, by rw [heq, List.cons_append], hb, ?_, hpost⟩
        intro x hx
        rcases List.mem_cons.mp hx with hx | hx
        · subst hx
          omega
        · exact hpre x hx

/-- The pick is the first entry of the tally attaining the maximal
count: entries before it count strictly less, entries after it count at
most as much. -/
theorem prevailPick_first_max (m : List (String × Nat)) (e : String × Nat)
    (h : prevailPick m = some e) :
    ∃ pre post, m = pre ++ e :: post ∧
      (∀ q ∈ pre, q.2 < e.2) ∧ (∀ q ∈ post, q.2 ≤ e.2) := by
  cases m with
  | nil => simp [prevailPick] at h
  | cons p rest =>
    rw [prevailPick_eq_foldl, List.foldl_cons] at h
    have hstep : pickStep none p = some p := rfl
    rw [hstep] at h
    rcases pick_go rest p with ⟨hf, hall⟩ | ⟨e', pre, post, hf, heq, hb, hpre, hpost⟩
    · rw [hf] at h
      obtain rfl : p = e := by
        injection h
      exact ⟨[], rest, rfl, by simp, hall⟩
    · rw [hf] at h
      obtain rfl : e' = e := by
        injection h
      refine ⟨p :: pre, post, by rw [heq, List.cons_append], ?_, hpost⟩
      intro x hx
      rcases List.mem_cons.mp hx with hx | hx
      · subst hx
        omega
      · exact hpre x hx

theorem prevailPick_isSome (m : List (String × Nat)) (h : m ≠ []) :
    ∃ e, prevailPick m = some e := by
  cases m with
  | nil => exact absurd rfl h
  | cons p rest =>
    rw [prevailPick_eq_foldl, List.foldl_cons]
    have hstep : pickStep none p = some p := rfl
    rw [hstep]
    rcases pick_go rest p with ⟨hf, _⟩ | ⟨e, _, _, hf, _⟩
    · exact ⟨p, hf⟩
    · exact ⟨e, hf⟩

/-- C7 amended: for every mixed-font text node (at least two
characters), the prevail strategy tallies one occurrence per
single-character formatting span of the first length - 1 characters of
the node's text (the final character is never counted), keyed by
family::style in first-encounter order, and assigns uniformly to the
entire node the font whose key is the first tally entry attaining the
maximal count: its count is maximal over all keys, every earlier tally
entry counts strictly less (so ties between equal counts break in favor
of the key encountered first in enumeration order), and every later
entry counts at most as much. -/
theorem prevail_amended (charFonts : List FontName) (h : 2 ≤ charFonts.length) :
    ∃ k c pre post,
      prevailPick (prevailTally charFonts) = some (k, c) ∧
      prevailTally charFonts
        = (firstOccKeys ((charFonts.take (charFonts.length - 1)).map fontKey)).map
            (fun g => (g, (charFonts.take (charFonts.length - 1)).countP
                (fun f => fontKey f = g))) ∧
      c = (charFonts.take (charFonts.length - 1)).countP (fun f => fontKey f = k) ∧
      prevailTally charFonts = pre ++ (k, c) :: post ∧
      (∀ q ∈ pre, q.2 < c) ∧ (∀ q ∈ post, q.2 ≤ c) ∧
      (∀ g, (charFonts.take (charFonts.length - 1)).countP (fun f => fontKey f = g) ≤ c) := by
  have htally : prevailTally charFonts
      = (firstOccKeys ((charFonts.take (charFonts.length - 1)).map fontKey)).map
          (fun g => (g, (charFonts.take (charFonts.length - 1)).countP
              (fun f => fontKey f = g))) := by
    rw [prevailTally_eq_take, prevailTallyClaimed_spec]
  have hclen : (charFonts.take (charFonts.length - 1)).length = charFonts.length - 1 := by
    simp only [List.length_take]
    omega
  have hcne : charFonts.take (charFonts.length - 1) ≠ [] := by
    intro hcon
    rw [hcon] at hclen
    simp at hclen
    omega
  obtain ⟨f0, cs0, hcs⟩ := List.exists_cons_of_ne_nil hcne
  have hk0 : fontKey f0 ∈ firstOccKeys ((charFonts.take (charFonts.length - 1)).map fontKey) := by
    rw [mem_firstOccKeys]
    rw [hcs]
    simp
  have htne : prevailTally charFonts ≠ [] := by
    rw [htally]
    intro hcon
    rw [List.map_eq_nil_iff] at hcon
    rw [hcon] at hk0
    cases hk0
  obtain ⟨e, hpick⟩ := prevailPick_isSome _ htne
  obtain ⟨pre, post, heq, hpre, hpost⟩ := prevailPick_first_max _ e hpick
  have hemem : e ∈ prevailTally charFonts := by
    rw [heq]
    simp
  have heform : ∃ g, g ∈ firstOccKeys ((charFonts.take (charFonts.length - 1)).map fontKey) ∧
      e = (g, (charFonts.take (charFonts.length - 1)).countP (fun f => fontKey f = g)) := by
    rw [htally] at hemem
    obtain ⟨g, hg, hge⟩ := List.mem_map.mp hemem
    exact ⟨g, hg, hge.symm⟩
  obtain ⟨g0, hg0, hge⟩ := heform
  refine ⟨g0, e.2, pre, post, ?_, htally, ?_, ?_, hpre, hpost, ?_⟩
  · rw [hge] at hpick
    rw [hge]
    exact hpick
  · rw [hge]
  · rw [hge] at heq
    rw [hge]
    exact heq
  · intro g
    by_cases hgmem : g ∈ (charFonts.take (charFonts.length - 1)).map fontKey
    · have hgocc : g ∈ firstOccKeys ((charFonts.take (charFonts.length - 1)).map fontKey) :=
        (mem_firstOccKeys _ _).mpr hgmem
      have hgtal : (g, (charFonts.take (charFonts.length - 1)).countP
          (fun f => fontKey f = g)) ∈ prevailTally charFonts := by
        rw [htally]
        exact List.mem_map_of_mem _ hgocc
      rw [heq] at hgtal
      rcases List.mem_append.mp hgtal with hmem2 | hmem2
      · have := hpre _ hmem2
        omega
      · rcases List.mem_cons.mp hmem2 with hmem3 | hmem3
        · have : (charFonts.take (charFonts.length - 1)).countP
              (fun f => fontKey f = g) = e.2 := congrArg Prod.snd hmem3
          omega
        · have := hpost _ hmem3
          omega
    · have hz : (charFonts.take (charFonts.length - 1)).countP (fun f => fontKey f = g) = 0 := by
        rw [List.countP_eq_zero]
        intro a ha
        simp only [decide_eq_true_eq]
        intro hcon
        apply hgmem
        rw [← hcon]
        exact List.mem_map_of_mem _ ha
      omega

/-- Witness for the amended C7 on the three-character node with fonts
A, B, B: the tally covers the first two characters, both keys count 1,
and the first-encountered key A::Regular is picked. -/
theorem prevail_amended_witness :
    2 ≤ ([⟨"A", "Regular"⟩, ⟨"B", "Regular"⟩, ⟨"B", "Regular"⟩] : List FontName).length ∧
    (∃ k c pre post,
      prevailPick (prevailTally [⟨"A", "Regular"⟩, ⟨"B", "Regular"⟩, ⟨"B", "Regular"⟩])
          = some (k, c) ∧
      prevailTally [⟨"A", "Regular"⟩, ⟨"B", "Regular"⟩, ⟨"B", "Regular"⟩]
        = (firstOccKeys ((([⟨"A", "Regular"⟩, ⟨"B", "Regular"⟩, ⟨"B", "Regular"⟩] :
              List FontName).take
              (([⟨"A", "Regular"⟩, ⟨"B", "Regular"⟩, ⟨"B", "Regular"⟩] :
                List FontName).length - 1)).map fontKey)).map
            (fun g => (g, (([⟨"A", "Regular"⟩, ⟨"B", "Regular"⟩, ⟨"B", "Regular"⟩] :
                List FontName).take
                (([⟨"A", "Regular"⟩, ⟨"B", "Regular"⟩, ⟨"B", "Regular"⟩] :
                  List FontName).length - 1)).countP
                (fun f => fontKey f = g))) ∧
      c = (([⟨"A", "Regular"⟩, ⟨"B", "Regular"⟩, ⟨"B", "Regular"⟩] : List FontName).take
          (([⟨"A", "Regular"⟩, ⟨"B", "Regular"⟩, ⟨"B", "Regular"⟩] :
            List FontName).length - 1)).countP (fun f => fontKey f = k) ∧
      prevailTally [⟨"A", "Regular"⟩, ⟨"B", "Regular"⟩, ⟨"B", "Regular"⟩]
          = pre ++ (k, c) :: post ∧
      (∀ q ∈ pre, q.2 < c) ∧ (∀ q ∈ post, q.2 ≤ c) ∧
      (∀ g, (([⟨"A", "Regular"⟩, ⟨"B", "Regular"⟩, ⟨"B", "Regular"⟩] : List FontName).take
          (([⟨"A", "Regular"⟩, ⟨"B", "Regular"⟩, ⟨"B", "Regular"⟩] :
            List FontName).length - 1)).countP (fun f => fontKey f = g) ≤ c)) :=
  ⟨by decide,
   prevail_amended [⟨"A", "Regular"⟩, ⟨"B", "Regular"⟩, ⟨"B", "Regular"⟩] (by decide)⟩

/-! ## Command dispatch (code.js 169-186, 249-408)

The routing table is the set of case labels of the handleCommand
switch; each handler is an oracle returning either a JSON-serializable
result (abstracted as a string) or a thrown error message, matching the
await-and-rethrow behavior of every case.  The execute-command branch of
figma.ui.onmessage wraps dispatch in try/catch and posts exactly one
outbound envelope. -/
def knownCommands : List String :=
  ["get_document_info", "get_selection", "get_node_info", "get_nodes_info",
   "read_my_design", "create_rectangle", "create_frame", "create_text",
   "set_fill_color", "set_stroke_color", "move_node", "resize_node",
   "delete_node", "delete_multiple_nodes", "get_styles", "get_local_components",
   "create_component_instance", "export_node_as_image", "set_corner_radius",
   "set_text_content", "clone_node", "scan_text_nodes",
   "set_multiple_text_contents", "get_annotations", "set_annotation",
   "scan_nodes_by_types", "set_multiple_annotations", "set_layout_mode",
   "set_padding", "set_axis_align", "set_layout_sizing", "set_item_spacing",
   "analyze_selection", "convert_to_frame", "create_atlas", "create_grid_frame",
   "snap_to_grid", "export_phaser_map", "generate-tiles",
   "convert_to_basic_frame", "frame-up", "export-tile-map"]

def handleCommand (handlers : String → Except String String) (command : String) :
    Except String String :=
  if command ∈ knownCommands then handlers command
  else Except.error ("Unknown command: " ++ command)

structure OutMessage where
  type : String
  id : String
  body : String
deriving Repr, DecidableEq

/-- The execute-command case of figma.ui.onmessage (code.js 169-186):
one command-result or, when dispatch throws, one command-error whose
message falls back to "Error executing command" when the thrown
message is falsy (the empty string). -/
def onExecuteCommand (handlers : String → Except String String) (id command : String) :
    OutMessage :=
  match handleCommand handlers command with
  | Except.ok result => { type := "command-result", id := id, body := result }
  | Except.error msg =>
    { type := "command-error", id := id,
      body := if msg = "" then "Error executing command" else msg }

/-- C9: for every inbound execute-command message, dispatch of a command
name outside the routing table fails with an unknown-command error, and
every error produced by any handler is caught at the dispatch boundary
and converted into exactly one outbound command-error envelope carrying
the message id — no exception escapes unformatted, and every dispatched
message receives either a command-result or a command-error. -/
theorem dispatcher_error_boundary (handlers : String → Except String String)
    (id command : String) :
    (command ∉ knownCommands →
      handleCommand handlers command = Except.error ("Unknown command: " ++ command)) ∧
    ((onExecuteCommand handlers id command).type = "command-result" ∨
     (onExecuteCommand handlers id command).type = "command-error") ∧
    (onExecuteCommand handlers id command).id = id ∧
    (∀ result, handleCommand handlers command = Except.ok result →
      onExecuteCommand handlers id command
        = { type := "command-result", id := id, body := result }) ∧
    (∀ msg, handleCommand handlers command = Except.error msg →
      onExecuteCommand handlers id command
        = { type := "command-error", id := id,
            body := if msg = "" then "Error executing command" else msg }) := by
  refine ⟨?_, ?_, ?_, ?_, ?_⟩
  · intro hmem
    unfold handleCommand
    rw [if_neg hmem]
  · unfold onExecuteCommand
    cases handleCommand handlers command with
    | ok result => left; rfl
    | error msg => right; rfl
  · unfold onExecuteCommand
    cases handleCommand handlers command with
    | ok result => rfl
    | error msg => rfl
  · intro result hres
    unfold onExecuteCommand
    rw [hres]
  · intro msg hmsg
    unfold onExecuteCommand
    rw [hmsg]

/-- Concrete handler oracle for the C9 witness: delete_node throws,
everything else succeeds. -/
def handlersW : String → Except String String :=
  fun c => if c = "delete_node" then Except.error "Node not found" else Except.ok "ok"

/-- Witness for C9 at an unknown command, a succeeding handler and a
throwing handler. -/
theorem dispatcher_error_boundary_witness :
    ("bogus_command" ∉ knownCommands ∧
      handleCommand handlersW "bogus_command"
        = Except.error ("Unknown command: " ++ "bogus_command")) ∧
    ((onExecuteCommand handlersW "idW" "get_styles").type = "command-result" ∨
      (onExecuteCommand handlersW "idW" "get_styles").type = "command-error") ∧
    (onExecuteCommand handlersW "idW" "get_styles").id = "idW" ∧
    (handleCommand handlersW "get_styles" = Except.ok "ok" ∧
      onExecuteCommand handlersW "idW" "get_styles"
        = { type := "command-result", id := "idW", body := "ok" }) ∧
    (handleCommand handlersW "delete_node" = Except.error "Node not found" ∧
      onExecuteCommand handlersW "idW" "delete_node"
        = { type := "command-error", id := "idW",
            body := if "Node not found" = "" then "Error executing command"
              else "Node not found" }) :=
  ⟨⟨by decide, (dispatcher_error_boundary handlersW "idW" "bogus_command").1 (by decide)⟩,
   (dispatcher_error_boundary handlersW "idW" "get_styles").2.1,
   (dispatcher_error_boundary handlersW "idW" "get_styles").2.2.1,
   ⟨rfl, (dispatcher_error_boundary handlersW "idW" "get_styles").2.2.2.1 "ok" rfl⟩,
   ⟨rfl, (dispatcher_error_boundary handlersW "idW" "delete_node").2.2.2.2
      "Node not found" rfl⟩⟩
